import Mathlib

set_option linter.unusedSectionVars false

/-!
Verification of the discrete-math workbooks (entropy, Shannon-Fano and
Huffman prefix codes, generic prefix-codec encode/decode, frequency-based
symbol removal).

The Python sources are shallowly embedded:
* a `Counter` / dict becomes an association list `List (σ × Nat)` with
  distinct keys (`List.lookup` is dict lookup);
* bitstrings of characters '0'/'1' become `List Bool` ('0' ↦ `false`,
  '1' ↦ `true`);
* Python floats become `ℝ` (entropy, average code length) or `ℚ`
  (the removal fraction);
* code that can raise becomes `Option`/`Except`.
-/

section Defs

variable {σ : Type} [DecidableEq σ]


/-- Embeds `Workbook2.encode`: concatenate each symbol's codeword; raise
`ValueError` (the spec's MissingSymbol) carrying the set of symbols of the
input that are absent from the codec dict. -/
def encode (text : List σ) (codec : List (σ × List Bool)) :
    Except (Finset σ) (List Bool) :=
  let missing : Finset σ :=
    (text.filter fun c => (List.lookup c codec).isNone).toFinset
  if missing = ∅ then
    Except.ok ((text.map fun c => (List.lookup c codec).getD []).flatten)
  else Except.error missing

/-- The inverse dict `{code: char for char, code in codec.items()}` of
`Workbook2.decode`.  Building a Python dict keeps the last binding of a
duplicated key, hence the `reverse` before the first-match `lookup`. -/
def revCodec (codec : List (σ × List Bool)) : List (List Bool × σ) :=
  (codec.map fun e => (e.2, e.1)).reverse

/-- The bit loop of `Workbook2.decode`: append the bit to the buffer and,
on a match in the inverse dict, emit the symbol and reset the buffer.
Any unmatched trailing buffer is silently discarded (the source returns
`result` without inspecting `buffer`). -/
def decodeAux (rev : List (List Bool × σ)) :
    List Bool → List Bool → List σ
  | _, [] => []
  | buffer, b :: rest =>
    let buffer' := buffer ++ [b]
    match List.lookup buffer' rev with
    | some c => c :: decodeAux rev [] rest
    | none => decodeAux rev buffer' rest

/-- Embeds `Workbook2.decode`. -/
def decode (bits : List Bool) (codec : List (σ × List Bool)) : List σ :=
  decodeAux (revCodec codec) [] bits

/-- Two codec entries have mutually non-prefix codewords.  This is the
spec's Codec invariant: a prefix-free *injective* mapping (equal codewords
would be prefixes of each other). -/
def NPre (e₁ e₂ : σ × List Bool) : Prop :=
  ¬ e₁.2 <+: e₂.2 ∧ ¬ e₂.2 <+: e₁.2

instance : DecidablePred fun p : (σ × List Bool) × (σ × List Bool) => NPre p.1 p.2 := by
  intro p
  unfold NPre
  infer_instance

instance : DecidableRel (@NPre σ) := by
  intro e₁ e₂
  unfold NPre
  infer_instance

instance {ε α : Type} [DecidableEq ε] [DecidableEq α] :
    DecidableEq (Except ε α)
  | Except.ok a, Except.ok b => decidable_of_iff (a = b) (by simp)
  | Except.ok _, Except.error _ => isFalse (by simp)
  | Except.error _, Except.ok _ => isFalse (by simp)
  | Except.error e, Except.error f => decidable_of_iff (e = f) (by simp)


/-- Embeds `calculate_entropy` (textually identical in Workbook1, Workbook2
and Workbook3): Shannon entropy `Σ (c/n)·log2(1/(c/n))` over the counter's
values, with the `n == 0` case defined as `0.0`.  Python floats are embedded
as real numbers. -/
noncomputable def calculate_entropy (counter : List (σ × Nat)) : ℝ :=
  let n : Nat := (counter.map Prod.snd).sum
  if n = 0 then 0
  else (counter.map fun e =>
    ((e.2 : ℝ) / (n : ℝ)) * Real.logb 2 (1 / ((e.2 : ℝ) / (n : ℝ)))).sum


/-- `Counter.__getitem__`: a Python `Counter` returns 0 for an absent key. -/
def countOf (counter : List (σ × Nat)) (s : σ) : Nat :=
  (List.lookup s counter).getD 0

/-- Embeds `Workbook2.avg_code_length`: `Σ (counter[char]/char_counts) ·
len(code)` over the codec's items, with `char_counts` the sum of the
counter's values and result `0.0` when that total is 0. -/
noncomputable def avg_code_length (codec : List (σ × List Bool))
    (counter : List (σ × Nat)) : ℝ :=
  let char_counts : Nat := (counter.map Prod.snd).sum
  if char_counts = 0 then 0
  else (codec.map fun e =>
    ((countOf counter e.1 : ℝ) / (char_counts : ℝ)) * (e.2.length : ℝ)).sum

/-- Embeds `Workbook3.calculate_avg_length`: the same accumulation but the
probability divides by `len(text)`, not by the counter's total.  The source
has no zero guard (Python raises ZeroDivisionError on empty text; the
real-number embedding makes those terms 0). -/
noncomputable def calculate_avg_length (text : List σ)
    (codec : List (σ × List Bool)) (counter : List (σ × Nat)) : ℝ :=
  (codec.map fun e =>
    ((countOf counter e.1 : ℝ) / (text.length : ℝ)) * (e.2.length : ℝ)).sum

/-- The spec's formula: `Σ (count[s]/total) · len(code[s])` over the symbols
present in both the Codec and the FrequencyCount, where `total` is the sum
of all counts in the FrequencyCount. -/
noncomputable def specAverageCodeLength (codec : List (σ × List Bool))
    (counter : List (σ × Nat)) : ℝ :=
  ∑ s ∈ (codec.map Prod.fst).toFinset ∩ (counter.map Prod.fst).toFinset,
    ((countOf counter s : ℝ) / (((counter.map Prod.snd).sum : Nat) : ℝ))
      * (((List.lookup s codec).getD []).length : ℝ)


/-- Descending order on (symbol, count) pairs by count — the key order of
`sorted(counter.items(), key=lambda x: x[1], reverse=True)`.  Python's sort
is stable, and a stable sort is determined by its key order, so
`List.insertionSort descBySnd` (also stable) is the same function. -/
def descBySnd (a b : σ × Nat) : Prop := b.2 ≤ a.2

instance : DecidableRel (@descBySnd σ) := fun a b => Nat.decLe b.2 a.2

instance : IsTotal (σ × Nat) descBySnd := ⟨fun a b => Nat.le_total b.2 a.2⟩

instance : IsTrans (σ × Nat) descBySnd :=
  ⟨fun _ _ _ hab hbc => le_trans hbc hab⟩

/-- The cut-point loop of `calculate_shannon_fano.split`: scan the group's
weights left to right accumulating `acc`; at the first index `i` with
`acc >= total / 2` (equivalently `total ≤ 2·acc`, exactly in integers) set
`cut_idx = i + 1` and break; `cut_idx` stays 0 if the loop never breaks. -/
def cutIdxAux (total : Nat) : List Nat → Nat → Nat → Nat
  | [], _, _ => 0
  | f :: rest, acc, i =>
    if total ≤ 2 * (acc + f) then i + 1
    else cutIdxAux total rest (acc + f) (i + 1)

def cutIdx (group : List (σ × Nat)) : Nat :=
  cutIdxAux (group.map Prod.snd).sum (group.map Prod.snd) 0 0

/-- The recursive `split` of `calculate_shannon_fano`: groups of size ≤ 1
get no further bits; otherwise cut at `cutIdx`, append `'0'`/`false` to
every codeword in the left part and `'1'`/`true` to the right part, and
recurse.  The Python recursion terminates only because the sorted input
guarantees a non-trivial cut, so the embedding makes the recursion
structural on a fuel argument, initialized — and proven sufficient — at
the group's length. -/
def sfAssign : Nat → List (σ × Nat) → List (σ × List Bool)
  | _, [] => []
  | _, [p] => [(p.1, [])]
  | 0, p :: q :: rest => (p :: q :: rest).map fun e => (e.1, [])
  | fuel + 1, p :: q :: rest =>
    let g := p :: q :: rest
    let k := cutIdx g
    ((sfAssign fuel (g.take k)).map fun e => (e.1, false :: e.2)) ++
      ((sfAssign fuel (g.drop k)).map fun e => (e.1, true :: e.2))

/-- Embeds `Workbook2.calculate_shannon_fano`: sort the counter's items by
descending count and recursively split. -/
def calculate_shannon_fano (counter : List (σ × Nat)) : List (σ × List Bool) :=
  sfAssign (List.insertionSort descBySnd counter).length
    (List.insertionSort descBySnd counter)


/-- A node of the Huffman algorithm (`Workbook3.Node`): a leaf holds a
symbol and its frequency (Python `char` set); an internal node holds a
frequency and its two children (Python `char = None`). -/
inductive HNode (σ : Type) where
  | leaf (c : σ) (freq : Nat)
  | node (freq : Nat) (l : HNode σ) (r : HNode σ)
deriving DecidableEq

def HNode.freq : HNode σ → Nat
  | HNode.leaf _ f => f
  | HNode.node f _ _ => f

/-- The key order `key=lambda x: x.freq` of `nodes.sort` (ascending,
stable). -/
def leFreq (a b : HNode σ) : Prop := a.freq ≤ b.freq

instance : DecidableRel (@leFreq σ) := fun a b => Nat.decLe a.freq b.freq

/-- The merge loop of `Node.build_huffman_codes`: while more than one node
remains, sort ascending by frequency (stable, like Python's `list.sort`),
pop the two smallest — the first becomes the left child — and append the
merged node.  An empty node list hits `nodes[0]`, Python's `IndexError`
(the spec's `InvalidInput`), embedded as `none`; the loop removes one node
per round, so fuel `length` (used by `huffLoop`) never runs out. -/
def huffLoopF : Nat → List (HNode σ) → Option (HNode σ)
  | _, [] => none
  | _, [t] => some t
  | 0, _ :: _ :: _ => none
  | fuel + 1, t1 :: t2 :: rest =>
    match List.insertionSort leFreq (t1 :: t2 :: rest) with
    | a :: b :: rest2 =>
      huffLoopF fuel (rest2 ++ [HNode.node (a.freq + b.freq) a b])
    | _ => none

def huffLoop (l : List (HNode σ)) : Option (HNode σ) := huffLoopF l.length l

/-- The recursive `generate_codes` of `Node.build_huffman_codes`: a leaf
records `code or "0"`; an internal node recurses into the right subtree
with `code + "0"` first, then the left subtree with `code + "1"` (that is
the dict's insertion order). -/
def generate_codes : HNode σ → List Bool → List (σ × List Bool)
  | HNode.leaf c _, code => [(c, if code.isEmpty then [false] else code)]
  | HNode.node _ l r, code =>
    generate_codes r (code ++ [false]) ++ generate_codes l (code ++ [true])

/-- `"".join(huffman_codes[char] for char in chars)` with `KeyError`
becoming `none`. -/
def lookupAll : List σ → List (σ × List Bool) → Option (List (List Bool))
  | [], _ => some []
  | c :: rest, codes =>
    match List.lookup c codes, lookupAll rest codes with
    | some w, some ws => some (w :: ws)
    | _, _ => none

/-- Embeds `Node.build_huffman_codes`: one leaf per counter item, the merge
loop, code generation from the final tree, and the encoding of `chars`.
Returns the codec, the encoded text and the tree root. -/
def build_huffman_codes (chars : List σ) (counter : List (σ × Nat)) :
    Option (List (σ × List Bool) × List Bool × HNode σ) :=
  match huffLoop (counter.map fun p => HNode.leaf p.1 p.2) with
  | none => none
  | some root =>
    match lookupAll chars (generate_codes root []) with
    | none => none
    | some ws => some (generate_codes root [], ws.flatten, root)

/-- The bit loop of `Node.decode_text`, walking the tree: bit `"1"` moves
to the left child, `"0"` to the right; reaching a leaf emits its symbol and
resets to the root.  Stepping off a leaf yields Python `None`
(`current_node = None`), and stepping again from `None` is an
`AttributeError` crash, embedded as `none`; end of input returns the
symbols decoded so far. -/
def decodeTextAux (tree : HNode σ) :
    Option (HNode σ) → List Bool → Option (List σ)
  | _, [] => some []
  | none, _ :: _ => none
  | some (HNode.leaf _ _), _ :: rest => decodeTextAux tree none rest
  | some (HNode.node _ l r), b :: rest =>
    match if b then l else r with
    | HNode.leaf c _ => (decodeTextAux tree (some tree) rest).map fun ds => c :: ds
    | HNode.node f2 l2 r2 =>
      decodeTextAux tree (some (HNode.node f2 l2 r2)) rest

/-- Embeds `Node.decode_text`. -/
def decode_text (encoded_text : List Bool) (tree : HNode σ) :
    Option (List σ) :=
  decodeTextAux tree (some tree) encoded_text

/-- The leaves of a tree, left to right. -/
def leaves : HNode σ → List σ
  | HNode.leaf c _ => [c]
  | HNode.node _ l r => leaves l ++ leaves r

/-- The leaves in the traversal order of `generate_codes` (right first). -/
def leavesRL : HNode σ → List σ
  | HNode.leaf c _ => [c]
  | HNode.node _ l r => leavesRL r ++ leavesRL l

/-- Pure path semantics of a Huffman tree: follow the bits (`true` = left
child, `false` = right child, matching `decode_text`). -/
def walk : HNode σ → List Bool → Option (HNode σ)
  | t, [] => some t
  | HNode.leaf _ _, _ :: _ => none
  | HNode.node _ l r, b :: w => walk (if b then l else r) w

/-- `w` is the path from `t` to a leaf holding `c`: non-empty, ending at
that leaf, with every proper prefix landing on an internal node. -/
def IsCodePath (t : HNode σ) (w : List Bool) (c : σ) : Prop :=
  w ≠ [] ∧ (∃ f, walk t w = some (HNode.leaf c f)) ∧
  ∀ p, p <+: w → p ≠ w → ∃ f l r, walk t p = some (HNode.node f l r)


inductive Mode where
  | top
  | bottom
deriving DecidableEq

/-- One step of `collections.Counter(text)`: increment the (first) entry of
the symbol or append a fresh `(c, 1)` at the end (first-encounter order). -/
def addCount : List (σ × Nat) → σ → List (σ × Nat)
  | [], c => [(c, 1)]
  | (k, v) :: rest, c =>
    if k = c then (k, v + 1) :: rest else (k, v) :: addCount rest c

/-- `collections.Counter(text)` as an association list in first-encounter
key order. -/
def toCounter (text : List σ) : List (σ × Nat) := text.foldl addCount []

/-- CPython's `round` applied to `frac * symbols_count`: round half to even
(banker's rounding), with the float value idealized as a rational. -/
def pythonRound (q : ℚ) : ℤ :=
  let f : ℤ := Int.fdiv q.num (q.den : ℤ)
  let r : ℚ := q - (f : ℚ)
  if r < 1 / 2 then f
  else if 1 / 2 < r then f + 1
  else if f % 2 = 0 then f else f + 1

/-- `counter.most_common()`: the counter's items sorted by descending count,
ties in first-encounter order (CPython uses a stable sort with the count
key; `insertionSort` with `descBySnd` is the same stable sort). -/
def mostCommon (counter : List (σ × Nat)) : List (σ × Nat) :=
  List.insertionSort descBySnd counter

/-- The slice of `most_common()` that `remove_by_frequency` selects:
`[:remove_n]` for `top`, `[-remove_n:]` for `bottom`, with
`remove_n = max(1, round(frac * symbols_count))`. -/
def removeSelection (text : List σ) (mode : Mode) (frac : ℚ) :
    List (σ × Nat) :=
  let counter := toCounter text
  let remove_n := (max 1 (pythonRound (frac * (counter.length : ℚ)))).toNat
  if mode = Mode.top then (mostCommon counter).take remove_n
  else (mostCommon counter).drop ((mostCommon counter).length - remove_n)

/-- Embeds `Workbook1.remove_by_frequency`: an empty counter returns the
text unchanged with an empty removed set; otherwise drop every occurrence
of a selected symbol, preserving order and multiplicity of the rest. -/
def remove_by_frequency (text : List σ) (mode : Mode) (frac : ℚ) :
    List σ × Finset σ :=
  if (toCounter text).isEmpty then (text, ∅)
  else
    let to_remove := ((removeSelection text mode frac).map Prod.fst).toFinset
    (text.filter fun c => c ∉ to_remove, to_remove)

end Defs

section Theorems

variable {σ : Type} [DecidableEq σ]

omit [DecidableEq σ] in
theorem NPre.symmetric : Symmetric (@NPre σ) := by
  intro a b h
  exact ⟨h.2, h.1⟩

theorem lookup_cons_self {α β : Type} [BEq α] [LawfulBEq α] (a : α) (b : β)
    (l : List (α × β)) : List.lookup a ((a, b) :: l) = some b := by
  simp [List.lookup_cons]

theorem lookup_cons_ne {α β : Type} [BEq α] [LawfulBEq α] {a k : α} (b : β)
    (l : List (α × β)) (h : a ≠ k) :
    List.lookup a ((k, b) :: l) = List.lookup a l := by
  have hb : (a == k) = false := beq_false_of_ne h
  simp [List.lookup_cons, hb]

theorem lookup_mem {α β : Type} [BEq α] [LawfulBEq α] {l : List (α × β)} {k : α} {v : β}
    (h : List.lookup k l = some v) : (k, v) ∈ l := by
  induction l with
  | nil => simp [List.lookup] at h
  | cons e rest ih =>
    obtain ⟨a, b⟩ := e
    by_cases hk : k = a
    · subst hk
      rw [lookup_cons_self] at h
      simp at h
      simp [h]
    · rw [lookup_cons_ne _ _ hk] at h
      exact List.mem_cons_of_mem _ (ih h)

theorem lookup_isSome_of_mem_keys {α β : Type} [BEq α] [LawfulBEq α]
    {l : List (α × β)} {k : α} (h : k ∈ l.map Prod.fst) :
    (List.lookup k l).isSome := by
  induction l with
  | nil => simp at h
  | cons e rest ih =>
    obtain ⟨a, b⟩ := e
    by_cases hk : k = a
    · subst hk
      rw [lookup_cons_self]
      rfl
    · rw [lookup_cons_ne _ _ hk]
      rw [List.map_cons] at h
      rcases List.mem_cons.mp h with h | h
      · exact absurd h hk
      · exact ih h

theorem mem_keys_of_lookup_isSome {α β : Type} [BEq α] [LawfulBEq α]
    {l : List (α × β)} {k : α} (h : (List.lookup k l).isSome) :
    k ∈ l.map Prod.fst := by
  rcases Option.isSome_iff_exists.mp h with ⟨v, hv⟩
  exact List.mem_map.mpr ⟨(k, v), lookup_mem hv, rfl⟩

theorem lookup_eq_some_of_nodup {α β : Type} [BEq α] [LawfulBEq α]
    {l : List (α × β)} {k : α} {v : β}
    (hnd : (l.map Prod.fst).Nodup) (h : (k, v) ∈ l) :
    List.lookup k l = some v := by
  induction l with
  | nil => simp at h
  | cons e rest ih =>
    obtain ⟨a, b⟩ := e
    rw [List.map_cons] at hnd
    obtain ⟨hna, hnd2⟩ := List.nodup_cons.mp hnd
    rcases List.mem_cons.mp h with h1 | h2
    · rw [Prod.mk.injEq] at h1
      rw [h1.1, lookup_cons_self, h1.2]
    · by_cases hk : k = a
      · exfalso
        subst hk
        exact hna (List.mem_map.mpr ⟨(k, v), h2, rfl⟩)
      · rw [lookup_cons_ne _ _ hk]
        exact ih hnd2 h2

theorem mem_revCodec {codec : List (σ × List Bool)} {w : List Bool} {c : σ} :
    (w, c) ∈ revCodec codec ↔ (c, w) ∈ codec := by
  constructor
  · intro h
    rw [revCodec, List.mem_reverse] at h
    rcases List.mem_map.mp h with ⟨e, he, heq⟩
    obtain ⟨c', w'⟩ := e
    rw [Prod.mk.injEq] at heq
    obtain ⟨h1, h2⟩ := heq
    simp at h1 h2
    rw [h1, h2] at he
    exact he
  · intro h
    rw [revCodec, List.mem_reverse]
    exact List.mem_map.mpr ⟨(c, w), h, rfl⟩

theorem lookup_revCodec_eq_some {codec : List (σ × List Bool)}
    (hpf : codec.Pairwise NPre) {c : σ} {w : List Bool}
    (hm : (c, w) ∈ codec) : List.lookup w (revCodec codec) = some c := by
  have hs : (List.lookup w (revCodec codec)).isSome :=
    lookup_isSome_of_mem_keys
      (List.mem_map.mpr ⟨(w, c), mem_revCodec.mpr hm, rfl⟩)
  rcases Option.isSome_iff_exists.mp hs with ⟨c', hc'⟩
  have hm' : (c', w) ∈ codec := mem_revCodec.mp (lookup_mem hc')
  by_cases he : (c, w) = (c', w)
  · rw [Prod.mk.injEq] at he
    rw [hc', he.1]
  · exfalso
    exact (hpf.forall NPre.symmetric hm hm' he).1 (List.prefix_rfl)

theorem lookup_revCodec_shorter_none {codec : List (σ × List Bool)}
    (hpf : codec.Pairwise NPre) {c : σ} {w p : List Bool}
    (hm : (c, w) ∈ codec) (hp : p <+: w) (hpw : p ≠ w) :
    List.lookup p (revCodec codec) = none := by
  by_contra h
  rcases Option.ne_none_iff_exists'.mp h with ⟨c', hc'⟩
  have hm' : (c', p) ∈ codec := mem_revCodec.mp (lookup_mem hc')
  have hne2 : (c, w) ≠ (c', p) := by
    intro he
    rw [Prod.mk.injEq] at he
    exact hpw he.2.symm
  exact (hpf.forall NPre.symmetric hm hm' hne2).2 hp

theorem decodeAux_codeword {rev : List (List Bool × σ)} {w : List Bool} {c : σ}
    (hw : List.lookup w rev = some c)
    (hpre : ∀ p, p <+: w → p ≠ w → List.lookup p rev = none) :
    ∀ (v u rest : List Bool), u ++ v = w → v ≠ [] →
      decodeAux rev u (v ++ rest) = c :: decodeAux rev [] rest := by
  intro v
  induction v with
  | nil => intro u rest _ hv; exact absurd rfl hv
  | cons b v' ih =>
    intro u rest huv _
    show decodeAux rev u (b :: (v' ++ rest)) = c :: decodeAux rev [] rest
    rw [decodeAux]
    cases v' with
    | nil =>
      have hub : u ++ [b] = w := by simpa using huv
      rw [hub, hw]
      rfl
    | cons b2 v2 =>
      have hpfx : (u ++ [b]) <+: w := ⟨b2 :: v2, by simpa using huv⟩
      have hlt : (u ++ [b]) ≠ w := by
        intro he
        have : w.length = (u ++ [b]).length + (b2 :: v2).length := by
          rw [← huv]
          simp
          omega
        rw [he] at this
        simp at this
      rw [hpre _ hpfx hlt]
      exact ih (u ++ [b]) rest (by simpa using huv) (by simp)

theorem decodeAux_flatten_append (codec : List (σ × List Bool))
    (hpf : codec.Pairwise NPre) (hne : ∀ e ∈ codec, e.2 ≠ []) :
    ∀ (L : List σ) (tail : List Bool),
      (∀ s ∈ L, (List.lookup s codec).isSome) →
      decodeAux (revCodec codec) []
          ((L.map fun s => (List.lookup s codec).getD []).flatten ++ tail)
        = L ++ decodeAux (revCodec codec) [] tail := by
  intro L
  induction L with
  | nil => intro tail _; simp
  | cons s L' ih =>
    intro tail hmem
    obtain ⟨w, hw⟩ := Option.isSome_iff_exists.mp (hmem s (List.mem_cons_self s L'))
    have hmw : (s, w) ∈ codec := lookup_mem hw
    have hflat :
        ((s :: L').map fun t => (List.lookup t codec).getD []).flatten ++ tail
          = w ++ (((L'.map fun t => (List.lookup t codec).getD []).flatten) ++ tail) := by
      simp [hw]
    rw [hflat]
    rw [decodeAux_codeword (lookup_revCodec_eq_some hpf hmw)
      (fun p hp hpw => lookup_revCodec_shorter_none hpf hmw hp hpw)
      w [] _ (by simp) (hne _ hmw)]
    rw [ih tail (fun t ht => hmem t (List.mem_cons_of_mem _ ht))]
    rfl

theorem decodeAux_no_match (rev : List (List Bool × σ)) :
    ∀ (xs buf : List Bool),
      (∀ p, p ≠ [] → p <+: xs → List.lookup (buf ++ p) rev = none) →
      decodeAux rev buf xs = [] := by
  intro xs
  induction xs with
  | nil => intro buf _; rfl
  | cons b rest ih =>
    intro buf h
    rw [decodeAux]
    rw [h [b] (by simp) ⟨rest, rfl⟩]
    exact ih (buf ++ [b]) fun p hp hpre => by
      rw [List.append_assoc]
      exact h ([b] ++ p) (by simp) (by
        rcases hpre with ⟨t, ht⟩
        exact ⟨t, by rw [← ht]; rfl⟩)

theorem encode_ok_parts {codec : List (σ × List Bool)} {text : List σ}
    {bits : List Bool} (henc : encode text codec = Except.ok bits) :
    (∀ s ∈ text, (List.lookup s codec).isSome) ∧
    bits = (text.map fun c => (List.lookup c codec).getD []).flatten := by
  rw [encode] at henc
  split at henc
  case isTrue hm =>
    refine ⟨?_, by injection henc with h; exact h.symm⟩
    intro s hs
    rw [List.toFinset_eq_empty_iff] at hm
    by_cases h : (List.lookup s codec).isSome
    · exact h
    · exfalso
      have hn : (List.lookup s codec).isNone := by
        rw [Option.isNone_iff_eq_none, ← Option.not_isSome_iff_eq_none]
        simpa using h
      have : s ∈ text.filter fun c => (List.lookup c codec).isNone :=
        List.mem_filter.mpr ⟨hs, hn⟩
      rw [hm] at this
      simp at this
  case isFalse => exact absurd henc (by simp)

/-- **C1.** PrefixCodec round trip: for a sequence whose symbols all have
codewords in a codec satisfying the spec's Codec invariants (injective and
prefix-free, here `Pairwise NPre`, with non-empty codewords), decoding the
encoding returns exactly the original sequence:
`decode (encode text codec) codec = text`. -/
theorem prefix_codec_roundtrip (codec : List (σ × List Bool)) (text : List σ)
    (hpf : codec.Pairwise NPre) (hne : ∀ e ∈ codec, e.2 ≠ [])
    (bits : List Bool) (henc : encode text codec = Except.ok bits) :
    decode bits codec = text := by
  obtain ⟨hmem, hbits⟩ := encode_ok_parts henc
  rw [decode, hbits, ← List.append_nil
    ((text.map fun c => (List.lookup c codec).getD []).flatten)]
  rw [decodeAux_flatten_append codec hpf hne text [] hmem]
  simp [decodeAux]

/-- Witness for C1 at a concrete codec and sequence. -/
theorem prefix_codec_roundtrip_witness :
    ([('a', [false]), ('b', [true, false]), ('c', [true, true])].Pairwise NPre) ∧
    encode ['a', 'b', 'a', 'c']
        [('a', [false]), ('b', [true, false]), ('c', [true, true])]
      = Except.ok [false, true, false, false, true, true] ∧
    decode [false, true, false, false, true, true]
        [('a', [false]), ('b', [true, false]), ('c', [true, true])]
      = ['a', 'b', 'a', 'c'] :=
  ⟨by decide, by decide,
    prefix_codec_roundtrip _ _ (by decide) (by decide) _ (by decide)⟩

theorem lookup_isNone_iff_not_mem_keys {α β : Type} [BEq α] [LawfulBEq α]
    {l : List (α × β)} {k : α} :
    (List.lookup k l).isNone ↔ k ∉ l.map Prod.fst := by
  rw [Option.isNone_iff_eq_none, ← Option.not_isSome_iff_eq_none]
  constructor
  · intro h hk
    exact h (lookup_isSome_of_mem_keys hk)
  · intro h hs
    exact h (mem_keys_of_lookup_isSome hs)

/-- **C3** (counterexample to the claim as stated).  `decode` does *not*
fail on a bitstring that is not a concatenation of complete codewords: the
source's `decode` has no error path at all.  On the claim's own example —
a single trailing `"1"` with no matching one-bit codeword — it returns the
empty sequence, and after a valid codeword it silently drops the trailing
buffer and returns the decoded prefix. -/
theorem decode_no_corrupt_error_counterexample :
    decode [true] [('a', [false])] = ([] : List Char) ∧
    decode [false, true] [('a', [false])] = ['a'] := by
  decide

/-- **C3** (amended).  `decode` raises no `CorruptStream` error: when the
input is a valid encoding followed by trailing bits none of whose non-empty
prefixes matches a codeword, it returns the symbols decoded so far and
silently discards the non-matching trailing buffer. -/
theorem decode_discards_unmatched_tail (codec : List (σ × List Bool))
    (text : List σ) (bits extra : List Bool)
    (hpf : codec.Pairwise NPre) (hne : ∀ e ∈ codec, e.2 ≠ [])
    (henc : encode text codec = Except.ok bits)
    (hbad : ∀ p ∈ extra.inits, p ≠ [] → List.lookup p (revCodec codec) = none) :
    decode (bits ++ extra) codec = text := by
  obtain ⟨hmem, hbits⟩ := encode_ok_parts henc
  rw [decode, hbits]
  rw [decodeAux_flatten_append codec hpf hne text extra hmem]
  rw [decodeAux_no_match (revCodec codec) extra []
    (fun p hp hpre => hbad p ((List.mem_inits _ _).mpr hpre) hp)]
  simp

/-- Witness for the amended C3 at a concrete codec, text and corrupt tail. -/
theorem decode_discards_unmatched_tail_witness :
    ([('a', [false])].Pairwise NPre) ∧
    encode ['a'] [('a', [false])] = Except.ok [false] ∧
    decode ([false] ++ [true]) [('a', [false])] = ['a'] :=
  ⟨by decide, by decide,
    decode_discards_unmatched_tail _ _ _ _ (by decide) (by decide) (by decide)
      (by decide)⟩

/-- **C8.** `encode` fails with the set of offending symbols iff some input
symbol has no codeword in the codec; otherwise it returns the concatenation
of the symbols' codewords in input order. -/
theorem encode_missing_iff (text : List σ) (codec : List (σ × List Bool)) :
    ((∀ c ∈ text, c ∈ codec.map Prod.fst) →
      encode text codec
        = Except.ok ((text.map fun c => (List.lookup c codec).getD []).flatten)) ∧
    ((∃ c ∈ text, c ∉ codec.map Prod.fst) →
      encode text codec
        = Except.error ((text.filter fun c => c ∉ codec.map Prod.fst).toFinset) ∧
      (text.filter fun c => c ∉ codec.map Prod.fst).toFinset ≠ ∅) := by
  have hfe : (text.filter fun c => (List.lookup c codec).isNone)
      = text.filter fun c => decide (c ∉ codec.map Prod.fst) := by
    apply List.filter_congr
    intro c _
    by_cases h : c ∈ codec.map Prod.fst
    · simp [h]
      rcases Option.isSome_iff_exists.mp (lookup_isSome_of_mem_keys h) with ⟨v, hv⟩
      exact ⟨v, lookup_mem hv⟩
    · simp [h]
      intro a b hab hca
      subst hca
      exact h (List.mem_map.mpr ⟨(c, b), hab, rfl⟩)
  constructor
  · intro hall
    have hempty : (text.filter fun c => (List.lookup c codec).isNone).toFinset
        = ∅ := by
      rw [hfe, List.toFinset_eq_empty_iff]
      rw [List.filter_eq_nil_iff]
      intro c hc
      simp [hall c hc]
    simp only [encode, hempty, if_pos]
  · rintro ⟨c, hc, hnc⟩
    have hmem : c ∈ text.filter fun c => (List.lookup c codec).isNone := by
      rw [hfe]
      exact List.mem_filter.mpr ⟨hc, by simpa using hnc⟩
    have hnot : (text.filter fun c => (List.lookup c codec).isNone).toFinset
        ≠ ∅ := by
      intro h
      rw [List.toFinset_eq_empty_iff] at h
      rw [h] at hmem
      simp at hmem
    refine ⟨?_, ?_⟩
    · simp only [encode, if_neg hnot]
      rw [hfe]
    · rw [← hfe] at *
      exact fun h => hnot (by rw [hfe] at h ⊢; exact h)

/-- Witness for C8: a fully covered text encodes to the concatenation, and a
text with an uncovered symbol yields the offending-symbol set. -/
theorem encode_missing_iff_witness :
    (∀ c ∈ ['a', 'a'], c ∈ [('a', [false])].map Prod.fst) ∧
    encode ['a', 'a'] [('a', [false])] = Except.ok [false, false] ∧
    (∃ c ∈ ['a', 'b'], c ∉ [('a', [false])].map Prod.fst) ∧
    encode ['a', 'b'] [('a', [false])] = Except.error {'b'} := by
  refine ⟨by decide, ?_, by decide, ?_⟩
  · exact ((encode_missing_iff ['a', 'a'] [('a', [false])]).1
      (by decide)).trans (by decide)
  · exact (((encode_missing_iff ['a', 'b'] [('a', [false])]).2
      (by decide)).1).trans (by decide)

theorem calculate_entropy_of_sum_ne_zero (counter : List (σ × Nat))
    (h : (counter.map Prod.snd).sum ≠ 0) :
    calculate_entropy counter
      = (counter.map fun e =>
          ((e.2 : ℝ) / (((counter.map Prod.snd).sum : Nat) : ℝ))
            * Real.logb 2
              (1 / ((e.2 : ℝ) / (((counter.map Prod.snd).sum : Nat) : ℝ)))).sum := by
  rw [calculate_entropy]
  simp [h]

theorem entropy_term_nonneg {c n : Nat} (hc : 0 < c) (hcn : c ≤ n) :
    (0 : ℝ) ≤ ((c : ℝ) / (n : ℝ)) * Real.logb 2 (1 / ((c : ℝ) / (n : ℝ))) := by
  have hc' : (0 : ℝ) < (c : ℝ) := by exact_mod_cast hc
  have hn' : (0 : ℝ) < (n : ℝ) := lt_of_lt_of_le hc' (by exact_mod_cast hcn)
  rw [one_div_div]
  apply mul_nonneg (le_of_lt (div_pos hc' hn'))
  apply Real.logb_nonneg one_lt_two
  rw [le_div_iff₀ hc']
  simpa using (show (c : ℝ) ≤ (n : ℝ) by exact_mod_cast hcn)

theorem entropy_term_pos {c n : Nat} (hc : 0 < c) (hcn : c < n) :
    (0 : ℝ) < ((c : ℝ) / (n : ℝ)) * Real.logb 2 (1 / ((c : ℝ) / (n : ℝ))) := by
  have hc' : (0 : ℝ) < (c : ℝ) := by exact_mod_cast hc
  have hn' : (0 : ℝ) < (n : ℝ) := lt_trans hc' (by exact_mod_cast hcn)
  rw [one_div_div]
  apply mul_pos (div_pos hc' hn')
  apply Real.logb_pos one_lt_two
  rw [lt_div_iff₀ hc']
  simpa using (show (c : ℝ) < (n : ℝ) by exact_mod_cast hcn)

/-- **C6.** For a FrequencyCount (distinct keys, every present count
positive) the entropy is ≥ 0 and equals 0 iff the number of distinct
symbols is ≤ 1, the empty case (total = 0) being defined as entropy 0. -/
theorem calculate_entropy_nonneg_zero_iff (counter : List (σ × Nat))
    (hnd : (counter.map Prod.fst).Nodup) (hpos : ∀ e ∈ counter, 0 < e.2) :
    0 ≤ calculate_entropy counter ∧
    (calculate_entropy counter = 0 ↔ counter.length ≤ 1) := by
  cases counter with
  | nil => simp [calculate_entropy]
  | cons e0 tail =>
    have h0 : 0 < e0.2 := hpos e0 (List.mem_cons_self _ _)
    have hsumle : ∀ e ∈ e0 :: tail, e.2 ≤ ((e0 :: tail).map Prod.snd).sum := by
      intro e he
      exact List.single_le_sum (fun x _ => Nat.zero_le x) _
        (List.mem_map.mpr ⟨e, he, rfl⟩)
    have hn : 0 < ((e0 :: tail).map Prod.snd).sum :=
      lt_of_lt_of_le h0 (hsumle e0 (List.mem_cons_self _ _))
    have hne : ((e0 :: tail).map Prod.snd).sum ≠ 0 := Nat.pos_iff_ne_zero.mp hn
    rw [calculate_entropy_of_sum_ne_zero _ hne]
    have hterm_nonneg : ∀ x ∈ ((e0 :: tail).map fun e =>
        ((e.2 : ℝ) / ((((e0 :: tail).map Prod.snd).sum : Nat) : ℝ))
          * Real.logb 2
            (1 / ((e.2 : ℝ) / ((((e0 :: tail).map Prod.snd).sum : Nat) : ℝ)))),
        (0 : ℝ) ≤ x := by
      intro x hx
      rcases List.mem_map.mp hx with ⟨e, he, hfe⟩
      rw [← hfe]
      exact entropy_term_nonneg (hpos e he) (hsumle e he)
    refine ⟨List.sum_nonneg hterm_nonneg, ?_⟩
    constructor
    · intro hE
      by_contra hlen
      cases tail with
      | nil => simp at hlen
      | cons e1 tail2 =>
        have h1 : 0 < e1.2 := hpos e1 (List.mem_cons_of_mem _ (List.mem_cons_self _ _))
        have hlt : e0.2 < ((e0 :: e1 :: tail2).map Prod.snd).sum := by
          simp only [List.map_cons, List.sum_cons]
          have : 0 ≤ (tail2.map Prod.snd).sum := Nat.zero_le _
          omega
        have hpos0 := entropy_term_pos h0 hlt
        rw [List.map_cons, List.sum_cons] at hE
        have hrest : (0 : ℝ) ≤ ((e1 :: tail2).map fun e =>
            ((e.2 : ℝ) / ((((e0 :: e1 :: tail2).map Prod.snd).sum : Nat) : ℝ))
              * Real.logb 2
                (1 / ((e.2 : ℝ)
                  / ((((e0 :: e1 :: tail2).map Prod.snd).sum : Nat) : ℝ)))).sum := by
          apply List.sum_nonneg
          intro x hx
          exact hterm_nonneg x (by
            rw [List.map_cons]
            exact List.mem_cons_of_mem _ hx)
        nlinarith [hpos0, hrest]
    · intro hlen
      cases tail with
      | nil =>
        have hnn : ((e0 :: ([] : List (σ × Nat))).map Prod.snd).sum = e0.2 := by
          simp
        have hcast : ((e0.2 : Nat) : ℝ) ≠ 0 := by
          exact_mod_cast Nat.pos_iff_ne_zero.mp h0
        simp [hnn, div_self hcast, Real.logb_one]
      | cons e1 tail2 => simp at hlen

/-- Witness for C6 at the two-symbol counter `{a: 1, b: 1}`. -/
theorem calculate_entropy_nonneg_zero_iff_witness :
    (([('a', 1), ('b', 1)] : List (Char × Nat)).map Prod.fst).Nodup ∧
    (∀ e ∈ ([('a', 1), ('b', 1)] : List (Char × Nat)), 0 < e.2) ∧
    (0 ≤ calculate_entropy [('a', 1), ('b', 1)] ∧
      (calculate_entropy [('a', 1), ('b', 1)] = 0 ↔
        ([('a', 1), ('b', 1)] : List (Char × Nat)).length ≤ 1)) :=
  ⟨by decide, by decide,
    calculate_entropy_nonneg_zero_iff _ (by decide) (by decide)⟩

theorem codec_sum_eq_spec (codec : List (σ × List Bool))
    (counter : List (σ × Nat)) (hcodec : (codec.map Prod.fst).Nodup) :
    (codec.map fun e =>
      ((countOf counter e.1 : ℝ) / (((counter.map Prod.snd).sum : Nat) : ℝ))
        * (e.2.length : ℝ)).sum
      = specAverageCodeLength codec counter := by
  have hstep : (codec.map fun e =>
      ((countOf counter e.1 : ℝ) / (((counter.map Prod.snd).sum : Nat) : ℝ))
        * (e.2.length : ℝ))
      = codec.map fun e =>
        ((countOf counter e.1 : ℝ) / (((counter.map Prod.snd).sum : Nat) : ℝ))
          * (((List.lookup e.1 codec).getD []).length : ℝ) := by
    apply List.map_congr_left
    intro e he
    have he' : (e.1, e.2) ∈ codec := by
      obtain ⟨a, b⟩ := e
      exact he
    rw [lookup_eq_some_of_nodup hcodec he']
    rfl
  rw [hstep]
  have hmm : (codec.map fun e =>
      ((countOf counter e.1 : ℝ) / (((counter.map Prod.snd).sum : Nat) : ℝ))
        * (((List.lookup e.1 codec).getD []).length : ℝ))
      = (codec.map Prod.fst).map fun s =>
        ((countOf counter s : ℝ) / (((counter.map Prod.snd).sum : Nat) : ℝ))
          * (((List.lookup s codec).getD []).length : ℝ) := by
    rw [List.map_map]
    rfl
  rw [hmm, ← List.sum_toFinset _ hcodec]
  rw [specAverageCodeLength]
  apply (Finset.sum_subset Finset.inter_subset_left ?_).symm
  intro x hx hnx
  have hxc : x ∉ (counter.map Prod.fst).toFinset := by
    intro hmem
    exact hnx (Finset.mem_inter.mpr ⟨hx, hmem⟩)
  have hnone : countOf counter x = 0 := by
    rw [countOf]
    have : (List.lookup x counter).isNone := by
      rw [lookup_isNone_iff_not_mem_keys]
      intro hk
      exact hxc (List.mem_toFinset.mpr hk)
    rw [Option.isNone_iff_eq_none] at this
    rw [this]
    rfl
  rw [hnone]
  simp

/-- **C5** (counterexample to the claim as stated).  `calculate_avg_length`
divides by `len(text)`, not by the FrequencyCount's total: with
`text = "ab"`, `codec = {a: "0"}`, `counter = {a: 1}` (total 1, positive) it
returns 1/2 while the claimed formula gives 1, far beyond the 1e-9
tolerance. -/
theorem calculate_avg_length_spec_counterexample :
    calculate_avg_length ['a', 'b'] [('a', [false])] [('a', 1)] = 1 / 2 ∧
    specAverageCodeLength [('a', [false])] [('a', 1)] = 1 ∧
    ¬ |calculate_avg_length ['a', 'b'] [('a', [false])] [('a', 1)]
        - specAverageCodeLength [('a', [false])] [('a', 1)]|
      ≤ 1 / 1000000000 := by
  have h1 : calculate_avg_length ['a', 'b'] [('a', [false])] [('a', 1)]
      = 1 / 2 := by
    rw [calculate_avg_length]
    rw [List.map_cons, List.map_nil, List.sum_cons, List.sum_nil]
    rw [show countOf [('a', 1)] 'a' = 1 from rfl]
    norm_num
  have h2 : specAverageCodeLength [('a', [false])] [('a', 1)] = 1 := by
    rw [specAverageCodeLength]
    rw [show ((([('a', [false])] : List (Char × List Bool)).map
        Prod.fst).toFinset ∩ (([('a', 1)] : List (Char × Nat)).map
        Prod.fst).toFinset) = {'a'} from by decide]
    rw [Finset.sum_singleton]
    rw [show countOf [('a', 1)] 'a' = 1 from rfl]
    rw [show (List.lookup 'a' [('a', [false])]).getD [] = [false] from rfl]
    norm_num
  refine ⟨h1, h2, ?_⟩
  rw [h1, h2]
  intro h
  rw [abs_le] at h
  linarith [h.1]

/-- **C5** (amended).  `avg_code_length` (Workbook2) returns the spec's
formula `Σ (count[s]/total)·len(code[s])` for every codec/FrequencyCount
pair with positive total; `calculate_avg_length` (Workbook3) divides by
`len(text)` and hence returns that formula under the additional premise
that the text length equals the FrequencyCount's total (as in the unigram
usage, where the counter is built from the same text). -/
theorem avg_code_length_eq_spec (codec : List (σ × List Bool))
    (counter : List (σ × Nat)) (text : List σ)
    (hcodec : (codec.map Prod.fst).Nodup)
    (htot : 0 < (counter.map Prod.snd).sum) :
    avg_code_length codec counter = specAverageCodeLength codec counter ∧
    (text.length = (counter.map Prod.snd).sum →
      calculate_avg_length text codec counter
        = specAverageCodeLength codec counter) := by
  constructor
  · rw [avg_code_length]
    simp only [Nat.pos_iff_ne_zero.mp htot, if_false]
    exact codec_sum_eq_spec codec counter hcodec
  · intro hlen
    rw [calculate_avg_length]
    rw [hlen]
    exact codec_sum_eq_spec codec counter hcodec

/-- Witness for the amended C5 at `text = "aa"`, `codec = {a: "0"}`,
`counter = {a: 2}`. -/
theorem avg_code_length_eq_spec_witness :
    ((([('a', [false])] : List (Char × List Bool)).map Prod.fst).Nodup) ∧
    (0 < (([('a', 2)] : List (Char × Nat)).map Prod.snd).sum) ∧
    (['a', 'a'].length = (([('a', 2)] : List (Char × Nat)).map Prod.snd).sum) ∧
    (avg_code_length [('a', [false])] [('a', 2)]
        = specAverageCodeLength [('a', [false])] [('a', 2)] ∧
      (['a', 'a'].length = (([('a', 2)] : List (Char × Nat)).map Prod.snd).sum →
        calculate_avg_length ['a', 'a'] [('a', [false])] [('a', 2)]
          = specAverageCodeLength [('a', [false])] [('a', 2)])) :=
  ⟨by decide, by decide, by decide,
    avg_code_length_eq_spec _ _ _ (by decide) (by decide)⟩

theorem cutIdxAux_le {total : Nat} :
    ∀ (fs p : List Nat) (acc i : Nat), p ≠ [] → p <+: fs →
      total ≤ 2 * (acc + p.sum) → cutIdxAux total fs acc i ≤ i + p.length := by
  intro fs
  induction fs with
  | nil =>
    intro p acc i hp hpre _
    rcases hpre with ⟨t, ht⟩
    cases p with
    | nil => exact absurd rfl hp
    | cons a b => simp at ht
  | cons f rest ih =>
    intro p acc i hp hpre htot
    by_cases hcond : total ≤ 2 * (acc + f)
    · rw [cutIdxAux, if_pos hcond]
      have : p.length ≠ 0 := fun h => hp (List.length_eq_zero.mp h)
      omega
    · rw [cutIdxAux, if_neg hcond]
      cases p with
      | nil => exact absurd rfl hp
      | cons p0 p' =>
        have hp0 : p0 = f := (List.cons_prefix_cons.mp hpre).1
        cases p' with
        | nil =>
          exfalso
          apply hcond
          subst hp0
          simpa using htot
        | cons p1 p2 =>
          have hpre' : (p1 :: p2) <+: rest := (List.cons_prefix_cons.mp hpre).2
          have hsum : total ≤ 2 * ((acc + f) + (p1 :: p2).sum) := by
            subst hp0
            rw [List.sum_cons] at htot
            omega
          have := ih (p1 :: p2) (acc + f) (i + 1) (by simp) hpre' hsum
          simp only [List.length_cons] at this ⊢
          omega

theorem cutIdxAux_pos {total : Nat} :
    ∀ (fs : List Nat) (acc i : Nat), fs ≠ [] → total ≤ 2 * (acc + fs.sum) →
      i + 1 ≤ cutIdxAux total fs acc i := by
  intro fs
  induction fs with
  | nil => intro acc i h _; exact absurd rfl h
  | cons f rest ih =>
    intro acc i _ htot
    by_cases hcond : total ≤ 2 * (acc + f)
    · rw [cutIdxAux, if_pos hcond]
    · rw [cutIdxAux, if_neg hcond]
      cases rest with
      | nil =>
        exfalso
        apply hcond
        simpa using htot
      | cons r1 r2 =>
        have hsum : total ≤ 2 * ((acc + f) + (r1 :: r2).sum) := by
          rw [List.sum_cons] at htot
          omega
        have := ih (acc + f) (i + 1) (by simp) hsum
        omega

theorem cutIdx_bounds (g : List (σ × Nat)) (hs : List.Sorted descBySnd g)
    (h2 : 2 ≤ g.length) : 1 ≤ cutIdx g ∧ cutIdx g ≤ g.length - 1 := by
  have hlen : (g.map Prod.snd).length = g.length := List.length_map _ _
  have hfsne : g.map Prod.snd ≠ [] := by
    intro h
    rw [h] at hlen
    simp at hlen
    omega
  constructor
  · apply cutIdxAux_pos _ 0 0 hfsne
    omega
  · have hz := List.dropLast_append_getLast hfsne
    have hys_len : (g.map Prod.snd).dropLast.length
        = (g.map Prod.snd).length - 1 := List.length_dropLast _
    have hysne : (g.map Prod.snd).dropLast ≠ [] := by
      intro h
      rw [h] at hys_len
      simp at hys_len
      omega
    have hpw : List.Pairwise (fun x y => y ≤ x) (g.map Prod.snd) :=
      List.pairwise_map.mpr hs
    have hyz : ∀ y ∈ (g.map Prod.snd).dropLast,
        (g.map Prod.snd).getLast hfsne ≤ y := by
      rw [← hz] at hpw
      obtain ⟨-, -, hcross⟩ := List.pairwise_append.mp hpw
      intro y hy
      exact hcross y hy _ (List.mem_singleton_self _)
    have hzsum : (g.map Prod.snd).getLast hfsne
        ≤ (g.map Prod.snd).dropLast.sum := by
      cases hys : (g.map Prod.snd).dropLast with
      | nil => exact absurd hys hysne
      | cons y0 ys' =>
        have h1 : (g.map Prod.snd).getLast hfsne ≤ y0 := by
          apply hyz
          rw [hys]
          exact List.mem_cons_self _ _
        rw [List.sum_cons]
        omega
    have htot : (g.map Prod.snd).sum
        ≤ 2 * (0 + (g.map Prod.snd).dropLast.sum) := by
      have hsum : (g.map Prod.snd).sum
          = (g.map Prod.snd).dropLast.sum + (g.map Prod.snd).getLast hfsne := by
        conv_lhs => rw [← hz]
        rw [List.sum_append]
        simp
      omega
    have hub := cutIdxAux_le (g.map Prod.snd) (g.map Prod.snd).dropLast 0 0
      hysne ⟨[(g.map Prod.snd).getLast hfsne], hz⟩ htot
    rw [cutIdx]
    omega

theorem NPre_map_cons (b : Bool) {l : List (σ × List Bool)}
    (h : l.Pairwise NPre) :
    (l.map fun e => (e.1, b :: e.2)).Pairwise NPre := by
  rw [List.pairwise_map]
  apply h.imp
  intro e1 e2 h12
  constructor
  · intro hp
    exact h12.1 (List.cons_prefix_cons.mp hp).2
  · intro hp
    exact h12.2 (List.cons_prefix_cons.mp hp).2

theorem sfAssign_succ (fuel : Nat) (p q : σ × Nat) (rest : List (σ × Nat)) :
    sfAssign (fuel + 1) (p :: q :: rest)
      = ((sfAssign fuel
            ((p :: q :: rest).take (cutIdx (p :: q :: rest)))).map
          fun e => (e.1, false :: e.2)) ++
        ((sfAssign fuel
            ((p :: q :: rest).drop (cutIdx (p :: q :: rest)))).map
          fun e => (e.1, true :: e.2)) := by
  rw [sfAssign]

theorem sf_core : ∀ (fuel : Nat) (g : List (σ × Nat)),
    List.Sorted descBySnd g → g.length ≤ fuel →
    ((sfAssign fuel g).map Prod.fst = g.map Prod.fst) ∧
    (sfAssign fuel g).Pairwise NPre ∧
    (2 ≤ g.length → ∀ e ∈ sfAssign fuel g, e.2 ≠ []) := by
  intro fuel
  induction fuel with
  | zero =>
    intro g _ hlen
    have : g = [] := List.length_eq_zero.mp (Nat.le_zero.mp hlen)
    subst this
    simp [sfAssign]
  | succ fuel ih =>
    intro g hs hlen
    match g with
    | [] => simp [sfAssign]
    | [p] => simp [sfAssign]
    | p :: q :: rest =>
      have h2 : 2 ≤ (p :: q :: rest).length := by
        simp only [List.length_cons]
        omega
      obtain ⟨hk1, hk2⟩ := cutIdx_bounds (p :: q :: rest) hs h2
      have hglen : (p :: q :: rest).length ≤ fuel + 1 := hlen
      have hlt : ((p :: q :: rest).take (cutIdx (p :: q :: rest))).length
          ≤ fuel := by
        rw [List.length_take]
        simp only [List.length_cons] at *
        omega
      have hrt : ((p :: q :: rest).drop (cutIdx (p :: q :: rest))).length
          ≤ fuel := by
        rw [List.length_drop]
        simp only [List.length_cons] at *
        omega
      have hsl : List.Sorted descBySnd
          ((p :: q :: rest).take (cutIdx (p :: q :: rest))) :=
        List.Pairwise.sublist (List.take_sublist _ _) hs
      have hsr : List.Sorted descBySnd
          ((p :: q :: rest).drop (cutIdx (p :: q :: rest))) :=
        List.Pairwise.sublist (List.drop_sublist _ _) hs
      obtain ⟨ihlk, ihlp, -⟩ := ih _ hsl hlt
      obtain ⟨ihrk, ihrp, -⟩ := ih _ hsr hrt
      rw [sfAssign_succ]
      refine ⟨?_, ?_, ?_⟩
      · rw [List.map_append, List.map_map, List.map_map]
        have hl : (Prod.fst ∘ fun e : σ × List Bool => (e.1, false :: e.2))
            = Prod.fst := rfl
        have hr : (Prod.fst ∘ fun e : σ × List Bool => (e.1, true :: e.2))
            = Prod.fst := rfl
        rw [hl, hr, ihlk, ihrk, ← List.map_append, List.take_append_drop]
      · rw [List.pairwise_append]
        refine ⟨NPre_map_cons false ihlp, NPre_map_cons true ihrp, ?_⟩
        intro a ha b hb
        rcases List.mem_map.mp ha with ⟨ea, -, hea⟩
        rcases List.mem_map.mp hb with ⟨eb, -, heb⟩
        rw [← hea, ← heb]
        constructor
        · intro hp
          exact Bool.false_ne_true (List.cons_prefix_cons.mp hp).1
        · intro hp
          exact Bool.false_ne_true ((List.cons_prefix_cons.mp hp).1).symm
      · intro _ e he
        rcases List.mem_append.mp he with h | h
        · rcases List.mem_map.mp h with ⟨ea, -, hea⟩
          rw [← hea]
          simp
        · rcases List.mem_map.mp h with ⟨ea, -, hea⟩
          rw [← hea]
          simp

theorem gen_keys : ∀ (t : HNode σ) (base : List Bool),
    (generate_codes t base).map Prod.fst = leavesRL t := by
  intro t
  induction t with
  | leaf c f => intro base; rfl
  | node f l r ihl ihr =>
    intro base
    rw [generate_codes, List.map_append, ihr, ihl]
    rfl

theorem leavesRL_perm : ∀ t : HNode σ, (leavesRL t).Perm (leaves t) := by
  intro t
  induction t with
  | leaf c f => exact List.Perm.refl _
  | node f l r ihl ihr =>
    rw [leavesRL, leaves]
    exact (ihr.append ihl).trans List.perm_append_comm

theorem gen_code_extends : ∀ (t : HNode σ) (base : List Bool)
    (e : σ × List Bool), e ∈ generate_codes t base →
    ∃ w, e.2 = base ++ w ∧ (base = [] → w ≠ []) := by
  intro t
  induction t with
  | leaf c f =>
    intro base e he
    rw [generate_codes] at he
    rcases List.mem_singleton.mp he with rfl
    cases base with
    | nil => exact ⟨[false], rfl, fun _ => by simp⟩
    | cons b bs =>
      refine ⟨[], by simp, fun h => absurd h (by simp)⟩
  | node f l r ihl ihr =>
    intro base e he
    rw [generate_codes] at he
    rcases List.mem_append.mp he with h | h
    · rcases ihr (base ++ [false]) e h with ⟨w, hw, -⟩
      exact ⟨false :: w, by rw [hw, List.append_assoc]; rfl, fun _ => by simp⟩
    · rcases ihl (base ++ [true]) e h with ⟨w, hw, -⟩
      exact ⟨true :: w, by rw [hw, List.append_assoc]; rfl, fun _ => by simp⟩

theorem append_bit_not_pre {base : List Bool} {b1 b2 : Bool} (h : b1 ≠ b2)
    (w1 w2 : List Bool) : ¬ (base ++ b1 :: w1) <+: (base ++ b2 :: w2) := by
  intro hp
  rw [List.prefix_append_right_inj] at hp
  exact h (List.cons_prefix_cons.mp hp).1

theorem gen_pairwise : ∀ (t : HNode σ) (base : List Bool),
    (generate_codes t base).Pairwise NPre := by
  intro t
  induction t with
  | leaf c f => intro base; exact List.pairwise_singleton _ _
  | node f l r ihl ihr =>
    intro base
    rw [generate_codes, List.pairwise_append]
    refine ⟨ihr _, ihl _, ?_⟩
    intro a ha b hb
    rcases gen_code_extends r (base ++ [false]) a ha with ⟨wa, hwa, -⟩
    rcases gen_code_extends l (base ++ [true]) b hb with ⟨wb, hwb, -⟩
    rw [List.append_assoc] at hwa hwb
    constructor
    · rw [hwa, hwb]
      exact append_bit_not_pre (by simp) wa wb
    · rw [hwa, hwb]
      exact append_bit_not_pre (by simp) wb wa

theorem gen_codes_ne_nil : ∀ (t : HNode σ) (e : σ × List Bool),
    e ∈ generate_codes t [] → e.2 ≠ [] := by
  intro t e he
  rcases gen_code_extends t [] e he with ⟨w, hw, hne⟩
  rw [hw]
  simpa using hne rfl

theorem sort_two_exists (t1 t2 : HNode σ) (rest : List (HNode σ)) :
    ∃ a b rest2, List.insertionSort leFreq (t1 :: t2 :: rest)
      = a :: b :: rest2 ∧ rest2.length = rest.length := by
  have hlen := List.length_insertionSort (@leFreq σ) (t1 :: t2 :: rest)
  cases hsort : List.insertionSort leFreq (t1 :: t2 :: rest) with
  | nil =>
    rw [hsort] at hlen
    simp at hlen
  | cons a tl =>
    cases tl with
    | nil =>
      rw [hsort] at hlen
      simp at hlen
    | cons b rest2 =>
      rw [hsort] at hlen
      simp at hlen
      exact ⟨a, b, rest2, rfl, by omega⟩

theorem huffLoopF_one (fuel : Nat) (t : HNode σ) :
    huffLoopF fuel [t] = some t := by
  cases fuel <;> rfl

theorem huffLoopF_succ (fuel : Nat) (t1 t2 : HNode σ) (rest : List (HNode σ))
    {a b : HNode σ} {rest2 : List (HNode σ)}
    (hsort : List.insertionSort leFreq (t1 :: t2 :: rest) = a :: b :: rest2) :
    huffLoopF (fuel + 1) (t1 :: t2 :: rest)
      = huffLoopF fuel (rest2 ++ [HNode.node (a.freq + b.freq) a b]) := by
  rw [huffLoopF, hsort]

theorem huffLoopF_isSome : ∀ (fuel : Nat) (l : List (HNode σ)), l ≠ [] →
    l.length ≤ fuel + 1 → ∃ t, huffLoopF fuel l = some t := by
  intro fuel
  induction fuel with
  | zero =>
    intro l hne hlen
    cases l with
    | nil => exact absurd rfl hne
    | cons t1 tl =>
      cases tl with
      | nil => exact ⟨t1, rfl⟩
      | cons t2 rest => simp at hlen
  | succ fuel ih =>
    intro l hne hlen
    cases l with
    | nil => exact absurd rfl hne
    | cons t1 tl =>
      cases tl with
      | nil => exact ⟨t1, rfl⟩
      | cons t2 rest =>
        obtain ⟨a, b, rest2, hsort, hlen2⟩ := sort_two_exists t1 t2 rest
        rw [huffLoopF_succ fuel t1 t2 rest hsort]
        apply ih
        · simp
        · rw [List.length_append]
          simp only [List.length_cons] at hlen ⊢
          simp
          omega

theorem huffLoopF_internal : ∀ (fuel : Nat) (l : List (HNode σ))
    (t : HNode σ), 2 ≤ l.length → huffLoopF fuel l = some t →
    ∃ f a b, t = HNode.node f a b := by
  intro fuel
  induction fuel with
  | zero =>
    intro l t h2 ht
    cases l with
    | nil => simp at h2
    | cons t1 tl =>
      cases tl with
      | nil => simp at h2
      | cons t2 rest => simp [huffLoopF] at ht
  | succ fuel ih =>
    intro l t h2 ht
    cases l with
    | nil => simp at h2
    | cons t1 tl =>
      cases tl with
      | nil => simp at h2
      | cons t2 rest =>
        obtain ⟨a, b, rest2, hsort, -⟩ := sort_two_exists t1 t2 rest
        rw [huffLoopF_succ fuel t1 t2 rest hsort] at ht
        cases rest2 with
        | nil =>
          rw [show ([] : List (HNode σ)) ++ [HNode.node (a.freq + b.freq) a b]
              = [HNode.node (a.freq + b.freq) a b] from rfl,
            huffLoopF_one] at ht
          injection ht with h
          exact ⟨a.freq + b.freq, a, b, h.symm⟩
        | cons x xs =>
          apply ih _ t _ ht
          rw [List.length_append]
          simp only [List.length_cons]
          omega

theorem huffLoopF_leaves : ∀ (fuel : Nat) (l : List (HNode σ))
    (t : HNode σ), huffLoopF fuel l = some t →
    (leaves t).Perm (l.map leaves).flatten := by
  intro fuel
  induction fuel with
  | zero =>
    intro l t ht
    cases l with
    | nil => simp [huffLoopF] at ht
    | cons t1 tl =>
      cases tl with
      | nil =>
        rw [huffLoopF_one] at ht
        injection ht with h
        subst h
        simp
      | cons t2 rest => simp [huffLoopF] at ht
  | succ fuel ih =>
    intro l t ht
    cases l with
    | nil => simp [huffLoopF] at ht
    | cons t1 tl =>
      cases tl with
      | nil =>
        rw [huffLoopF_one] at ht
        injection ht with h
        subst h
        simp
      | cons t2 rest =>
        obtain ⟨a, b, rest2, hsort, -⟩ := sort_two_exists t1 t2 rest
        rw [huffLoopF_succ fuel t1 t2 rest hsort] at ht
        have hperm := ih _ t ht
        have hL : ((rest2 ++ [HNode.node (a.freq + b.freq) a b]).map
            leaves).flatten
            = (rest2.map leaves).flatten ++ (leaves a ++ leaves b) := by
          rw [List.map_append, List.flatten_append]
          simp [leaves]
        have hR : ((a :: b :: rest2).map leaves).flatten
            = (leaves a ++ leaves b) ++ (rest2.map leaves).flatten := by
          simp [List.flatten_cons, List.append_assoc]
        have hsp : ((a :: b :: rest2).map leaves).flatten.Perm
            ((t1 :: t2 :: rest).map leaves).flatten := by
          apply List.Perm.flatten
          apply List.Perm.map
          rw [← hsort]
          exact List.perm_insertionSort leFreq (t1 :: t2 :: rest)
        rw [hL] at hperm
        have step : ((rest2.map leaves).flatten
            ++ (leaves a ++ leaves b)).Perm
            ((a :: b :: rest2).map leaves).flatten := by
          rw [hR]
          exact List.perm_append_comm
        exact (hperm.trans step).trans hsp

theorem leaf_map_flatten (counter : List (σ × Nat)) :
    ((counter.map fun p => HNode.leaf p.1 p.2).map leaves).flatten
      = counter.map Prod.fst := by
  induction counter with
  | nil => rfl
  | cons p rest ih =>
    simp only [List.map_cons, List.flatten_cons, leaves]
    rw [ih]
    rfl

theorem huffman_codes_keys (counter : List (σ × Nat)) (root : HNode σ)
    (hroot : huffLoop (counter.map fun p => HNode.leaf p.1 p.2) = some root) :
    ((generate_codes root []).map Prod.fst).Perm (counter.map Prod.fst) := by
  rw [gen_keys]
  apply (leavesRL_perm root).trans
  have h := huffLoopF_leaves _ _ _ hroot
  rw [leaf_map_flatten] at h
  exact h

theorem build_huffman_codes_eq (chars : List σ) (counter : List (σ × Nat))
    (root : HNode σ)
    (hroot : huffLoop (counter.map fun p => HNode.leaf p.1 p.2) = some root)
    {ws : List (List Bool)}
    (hws : lookupAll chars (generate_codes root []) = some ws) :
    build_huffman_codes chars counter
      = some (generate_codes root [], ws.flatten, root) := by
  rw [build_huffman_codes, hroot]
  simp [hws]

theorem lookupAll_eq_some (chars : List σ) (codes : List (σ × List Bool))
    (h : ∀ c ∈ chars, (List.lookup c codes).isSome) :
    lookupAll chars codes
      = some (chars.map fun c => (List.lookup c codes).getD []) := by
  induction chars with
  | nil => rfl
  | cons c rest ih =>
    obtain ⟨w, hw⟩ := Option.isSome_iff_exists.mp (h c (List.mem_cons_self _ _))
    rw [lookupAll, hw, ih (fun x hx => h x (List.mem_cons_of_mem _ hx))]
    simp [hw]

/-- **C4.** The Huffman builder fails when given an empty FrequencyCount
(the source hits `IndexError` at `nodes[0]`; the spec names this failure
`InvalidInput`), and for every FrequencyCount with at least one distinct
symbol — and a text formed of counted symbols — it succeeds, returning a
codec and a tree root. -/
theorem build_huffman_codes_empty_and_success :
    (∀ chars : List σ, build_huffman_codes chars ([] : List (σ × Nat)) = none) ∧
    (∀ (counter : List (σ × Nat)) (chars : List σ), counter ≠ [] →
      (∀ c ∈ chars, c ∈ counter.map Prod.fst) →
      ∃ codes enc root,
        build_huffman_codes chars counter = some (codes, enc, root)) := by
  constructor
  · intro chars
    rfl
  · intro counter chars hne hsub
    have hLne : counter.map (fun p => HNode.leaf p.1 p.2) ≠ [] := by
      intro h
      exact hne (List.map_eq_nil_iff.mp h)
    obtain ⟨root, hroot⟩ := huffLoopF_isSome
      (counter.map fun p => HNode.leaf p.1 p.2).length
      (counter.map fun p => HNode.leaf p.1 p.2) hLne (by omega)
    have hroot' : huffLoop (counter.map fun p => HNode.leaf p.1 p.2)
        = some root := hroot
    have hlookup : ∀ c ∈ chars,
        (List.lookup c (generate_codes root [])).isSome := by
      intro c hc
      apply lookup_isSome_of_mem_keys
      rw [(huffman_codes_keys counter root hroot').mem_iff]
      exact hsub c hc
    refine ⟨generate_codes root [],
      ((chars.map fun c =>
        (List.lookup c (generate_codes root [])).getD []).flatten), root, ?_⟩
    exact build_huffman_codes_eq chars counter root hroot'
      (lookupAll_eq_some chars _ hlookup)

theorem lookupAll_isSome_of_eq_some : ∀ (chars : List σ)
    (codes : List (σ × List Bool)) (ws : List (List Bool)),
    lookupAll chars codes = some ws →
    ∀ c ∈ chars, (List.lookup c codes).isSome := by
  intro chars
  induction chars with
  | nil =>
    intro codes ws _ c hc
    simp at hc
  | cons c0 cr ih =>
    intro codes ws hla c hc
    rw [lookupAll] at hla
    cases hl0 : List.lookup c0 codes with
    | none =>
      rw [hl0] at hla
      simp at hla
    | some w0 =>
      cases hlr : lookupAll cr codes with
      | none =>
        rw [hl0, hlr] at hla
        simp at hla
      | some wsr =>
        rcases List.mem_cons.mp hc with hh | hh
        · subst hh
          simp [hl0]
        · exact ih codes wsr hlr c hh

theorem build_huffman_codes_none (chars : List σ) (counter : List (σ × Nat))
    (root : HNode σ)
    (hroot : huffLoop (counter.map fun p => HNode.leaf p.1 p.2) = some root)
    (hla : lookupAll chars (generate_codes root []) = none) :
    build_huffman_codes chars counter = none := by
  rw [build_huffman_codes, hroot]
  simp [hla]

theorem build_huffman_codes_inv {chars : List σ} {counter : List (σ × Nat)}
    {codes : List (σ × List Bool)} {enc : List Bool} {root : HNode σ}
    (hb : build_huffman_codes chars counter = some (codes, enc, root)) :
    huffLoop (counter.map fun p => HNode.leaf p.1 p.2) = some root ∧
    codes = generate_codes root [] ∧
    enc = ((chars.map fun c => (List.lookup c codes).getD []).flatten) := by
  cases hroot : huffLoop (counter.map fun p => HNode.leaf p.1 p.2) with
  | none =>
    have hnone : build_huffman_codes chars counter = none := by
      rw [build_huffman_codes, hroot]
    rw [hnone] at hb
    exact absurd hb (by simp)
  | some root' =>
    cases hla : lookupAll chars (generate_codes root' []) with
    | none =>
      have hnone := build_huffman_codes_none chars counter root' hroot hla
      rw [hnone] at hb
      exact absurd hb (by simp)
    | some ws =>
      have heq := build_huffman_codes_eq chars counter root' hroot hla
      rw [heq] at hb
      injection hb with h
      have h1 : generate_codes root' [] = codes := congrArg Prod.fst h
      have h2 : ws.flatten = enc := congrArg (fun x => x.2.1) h
      have h3 : root' = root := congrArg (fun x => x.2.2) h
      have hwseq : ∀ c ∈ chars,
          (List.lookup c (generate_codes root' [])).isSome :=
        lookupAll_isSome_of_eq_some chars _ ws hla
      have hws : ws = chars.map fun c =>
          (List.lookup c (generate_codes root' [])).getD [] := by
        have h'' := lookupAll_eq_some chars _ hwseq
        rw [hla] at h''
        exact Option.some_inj.mp h''
      refine ⟨by rw [h3], ?_, ?_⟩
      · rw [← h3, h1]
      · rw [← h2, hws, ← h1]

/-- Witness for C4: the builder succeeds on `{a: 1}` with text `"aa"` (and
the empty case is the first, hypothesis-free conjunct). -/
theorem build_huffman_codes_empty_and_success_witness :
    (([('a', 1)] : List (Char × Nat)) ≠ []) ∧
    (∀ c ∈ ['a', 'a'], c ∈ ([('a', 1)] : List (Char × Nat)).map Prod.fst) ∧
    (build_huffman_codes (σ := Char) ['a'] [] = none) ∧
    (∃ codes enc root,
      build_huffman_codes ['a', 'a'] [('a', 1)] = some (codes, enc, root)) :=
  ⟨by decide, by decide,
    build_huffman_codes_empty_and_success.1 ['a'],
    build_huffman_codes_empty_and_success.2 [('a', 1)] ['a', 'a']
      (by decide) (by decide)⟩

/-- **C2.** For every FrequencyCount with at least 2 distinct symbols and
all counts positive, the Shannon-Fano codec and every codec produced by the
Huffman builder assign a non-empty codeword to each symbol, and their
codewords are pairwise mutually non-prefix (`NPre`) — in particular no
codeword is a proper prefix of another. -/
theorem builders_prefix_free (counter : List (σ × Nat))
    (hnd : (counter.map Prod.fst).Nodup) (h2 : 2 ≤ counter.length)
    (hpos : ∀ e ∈ counter, 0 < e.2) :
    ((∀ s ∈ counter.map Prod.fst,
        ∃ w, List.lookup s (calculate_shannon_fano counter) = some w ∧ w ≠ []) ∧
      (calculate_shannon_fano counter).Pairwise NPre) ∧
    (∀ (chars : List σ) (codes : List (σ × List Bool)) (enc : List Bool)
        (root : HNode σ),
      build_huffman_codes chars counter = some (codes, enc, root) →
      ((∀ s ∈ counter.map Prod.fst,
          ∃ w, List.lookup s codes = some w ∧ w ≠ []) ∧
        codes.Pairwise NPre)) := by
  constructor
  · have hs := List.sorted_insertionSort descBySnd counter
    have hlen := List.length_insertionSort descBySnd counter
    obtain ⟨hkeys, hpw, hne⟩ :=
      sf_core (List.insertionSort descBySnd counter).length
        (List.insertionSort descBySnd counter) hs (le_refl _)
    have h2' : 2 ≤ (List.insertionSort descBySnd counter).length := by omega
    have hSdef : calculate_shannon_fano counter
        = sfAssign (List.insertionSort descBySnd counter).length
          (List.insertionSort descBySnd counter) := rfl
    constructor
    · intro s hsmem
      have hsk : s ∈ (calculate_shannon_fano counter).map Prod.fst := by
        rw [hSdef, hkeys,
          ((List.perm_insertionSort descBySnd counter).map Prod.fst).mem_iff]
        exact hsmem
      obtain ⟨w, hw⟩ :=
        Option.isSome_iff_exists.mp (lookup_isSome_of_mem_keys hsk)
      refine ⟨w, hw, ?_⟩
      have hmem : (s, w) ∈ calculate_shannon_fano counter := lookup_mem hw
      rw [hSdef] at hmem
      exact hne h2' (s, w) hmem
    · rw [hSdef]
      exact hpw
  · intro chars codes enc root hb
    obtain ⟨hroot, hcodes, -⟩ := build_huffman_codes_inv hb
    subst hcodes
    constructor
    · intro s hsmem
      have hsk : s ∈ (generate_codes root []).map Prod.fst := by
        rw [(huffman_codes_keys counter root hroot).mem_iff]
        exact hsmem
      obtain ⟨w, hw⟩ :=
        Option.isSome_iff_exists.mp (lookup_isSome_of_mem_keys hsk)
      exact ⟨w, hw, gen_codes_ne_nil root _ (lookup_mem hw)⟩
    · exact gen_pairwise root []

/-- Witness for C2 at the counter `{a: 1, b: 2}`. -/
theorem builders_prefix_free_witness :
    ((([('a', 1), ('b', 2)] : List (Char × Nat)).map Prod.fst).Nodup) ∧
    (2 ≤ ([('a', 1), ('b', 2)] : List (Char × Nat)).length) ∧
    (∀ e ∈ ([('a', 1), ('b', 2)] : List (Char × Nat)), 0 < e.2) ∧
    (((∀ s ∈ ([('a', 1), ('b', 2)] : List (Char × Nat)).map Prod.fst,
        ∃ w, List.lookup s (calculate_shannon_fano [('a', 1), ('b', 2)])
          = some w ∧ w ≠ []) ∧
      (calculate_shannon_fano [('a', 1), ('b', 2)]).Pairwise NPre) ∧
    (∀ (chars : List Char) (codes : List (Char × List Bool)) (enc : List Bool)
        (root : HNode Char),
      build_huffman_codes chars [('a', 1), ('b', 2)] = some (codes, enc, root) →
      ((∀ s ∈ ([('a', 1), ('b', 2)] : List (Char × Nat)).map Prod.fst,
          ∃ w, List.lookup s codes = some w ∧ w ≠ []) ∧
        codes.Pairwise NPre))) :=
  ⟨by decide, by decide, by decide,
    builders_prefix_free [('a', 1), ('b', 2)] (by decide) (by decide)
      (by decide)⟩

theorem walk_append (u : List Bool) : ∀ (t : HNode σ) (v : List Bool),
    walk t (u ++ v) = (walk t u).bind fun s => walk s v := by
  induction u with
  | nil =>
    intro t v
    cases t <;> rfl
  | cons b u' ih =>
    intro t v
    cases t with
    | leaf c f => rfl
    | node f l r =>
      show walk (if b then l else r) (u' ++ v) = _
      rw [ih]
      rfl

theorem gen_code_walk : ∀ (t : HNode σ) (base : List Bool) (c : σ)
    (w0 : List Bool), (c, w0) ∈ generate_codes t base →
    (∃ f, t = HNode.leaf c f) ∨
    (∃ w, w0 = base ++ w ∧ IsCodePath t w c) := by
  intro t
  induction t with
  | leaf c0 f =>
    intro base c w0 hm
    rw [generate_codes] at hm
    have := List.mem_singleton.mp hm
    rw [Prod.mk.injEq] at this
    exact Or.inl ⟨f, by rw [this.1]⟩
  | node f l r ihl ihr =>
    intro base c w0 hm
    right
    rw [generate_codes] at hm
    rcases List.mem_append.mp hm with h | h
    · rcases ihr (base ++ [false]) c w0 h with ⟨fr, hr⟩ | ⟨w, hw, hpath⟩
      · subst hr
        rw [generate_codes] at h
        simp at h
        refine ⟨[false], h, by simp, ⟨fr, rfl⟩, ?_⟩
        intro p hp hpw
        have hpnil : p = [] := by
          cases p with
          | nil => rfl
          | cons x xs =>
            exfalso
            rw [List.cons_prefix_cons] at hp
            obtain ⟨rfl, hxs⟩ := hp
            exact hpw (by rw [List.prefix_nil.mp hxs])
        subst hpnil
        exact ⟨f, l, HNode.leaf c fr, rfl⟩
      · refine ⟨false :: w, by rw [hw, List.append_assoc]; rfl, by simp,
          ?_, ?_⟩
        · obtain ⟨fw, hfw⟩ := hpath.2.1
          exact ⟨fw, by rw [walk]; simpa using hfw⟩
        · intro p hp hpw
          cases p with
          | nil => exact ⟨f, l, r, rfl⟩
          | cons b p' =>
            rw [List.cons_prefix_cons] at hp
            obtain ⟨rfl, hp'⟩ := hp
            have hp'w : p' ≠ w := by
              intro hh
              exact hpw (by rw [hh])
            obtain ⟨f2, l2, r2, hw2⟩ := hpath.2.2 p' hp' hp'w
            exact ⟨f2, l2, r2, by rw [walk]; simpa using hw2⟩
    · rcases ihl (base ++ [true]) c w0 h with ⟨fl, hl⟩ | ⟨w, hw, hpath⟩
      · subst hl
        rw [generate_codes] at h
        simp at h
        refine ⟨[true], h, by simp, ⟨fl, rfl⟩, ?_⟩
        intro p hp hpw
        have hpnil : p = [] := by
          cases p with
          | nil => rfl
          | cons x xs =>
            exfalso
            rw [List.cons_prefix_cons] at hp
            obtain ⟨rfl, hxs⟩ := hp
            exact hpw (by rw [List.prefix_nil.mp hxs])
        subst hpnil
        exact ⟨f, HNode.leaf c fl, r, rfl⟩
      · refine ⟨true :: w, by rw [hw, List.append_assoc]; rfl, by simp,
          ?_, ?_⟩
        · obtain ⟨fw, hfw⟩ := hpath.2.1
          exact ⟨fw, by rw [walk]; simpa using hfw⟩
        · intro p hp hpw
          cases p with
          | nil => exact ⟨f, l, r, rfl⟩
          | cons b p' =>
            rw [List.cons_prefix_cons] at hp
            obtain ⟨rfl, hp'⟩ := hp
            have hp'w : p' ≠ w := by
              intro hh
              exact hpw (by rw [hh])
            obtain ⟨f2, l2, r2, hw2⟩ := hpath.2.2 p' hp' hp'w
            exact ⟨f2, l2, r2, by rw [walk]; simpa using hw2⟩

theorem walk_nil (t : HNode σ) : walk t [] = some t := by
  cases t <;> rfl

theorem decodeTextAux_nil (tree : HNode σ) (st : Option (HNode σ)) :
    decodeTextAux tree st [] = some [] := by
  cases st with
  | none => rfl
  | some cur => cases cur <;> rfl

theorem decodeTextAux_step (tree : HNode σ) {w : List Bool} {c : σ}
    (hpath : IsCodePath tree w c) (rest : List Bool) :
    decodeTextAux tree (some tree) (w ++ rest)
      = (decodeTextAux tree (some tree) rest).map fun ds => c :: ds := by
  obtain ⟨hwne, ⟨fw, hwalk⟩, hmid⟩ := hpath
  suffices h : ∀ (v u : List Bool) (cur : HNode σ), u ++ v = w → v ≠ [] →
      walk tree u = some cur → (∃ fc lc rc, cur = HNode.node fc lc rc) →
      decodeTextAux tree (some cur) (v ++ rest)
        = (decodeTextAux tree (some tree) rest).map fun ds => c :: ds by
    have htree : ∃ f0 l0 r0, tree = HNode.node f0 l0 r0 := by
      obtain ⟨f0, l0, r0, hw0⟩ := hmid [] ⟨w, rfl⟩ (fun hh => hwne hh.symm)
      rw [walk_nil] at hw0
      exact ⟨f0, l0, r0, Option.some_inj.mp hw0⟩
    exact h w [] tree rfl hwne (walk_nil tree) htree
  intro v
  induction v with
  | nil =>
    intro u cur _ hv
    exact absurd rfl hv
  | cons b v' ih =>
    intro u cur huv _ hwu hcur
    obtain ⟨fc, lc, rc, rfl⟩ := hcur
    have hchild : walk tree (u ++ [b]) = some (if b then lc else rc) := by
      rw [walk_append, hwu]
      show walk (HNode.node fc lc rc) [b] = _
      rw [walk, walk_nil]
    cases v' with
    | nil =>
      have hub : u ++ [b] = w := by simpa using huv
      have hleafc : (if b then lc else rc) = HNode.leaf c fw := by
        rw [hub, hwalk] at hchild
        exact (Option.some_inj.mp hchild).symm
      show decodeTextAux tree (some (HNode.node fc lc rc)) (b :: rest) = _
      rw [decodeTextAux, hleafc]
    | cons b2 v2 =>
      have hpfx : (u ++ [b]) <+: w := ⟨b2 :: v2, by simpa using huv⟩
      have hne2 : (u ++ [b]) ≠ w := by
        intro he
        have hlen : w.length = (u ++ [b]).length + (b2 :: v2).length := by
          rw [← huv]
          simp
          omega
        rw [he] at hlen
        simp at hlen
      obtain ⟨f2, l2, r2, hw2⟩ := hmid _ hpfx hne2
      have hchild2 : (if b then lc else rc) = HNode.node f2 l2 r2 :=
        Option.some_inj.mp (hchild.symm.trans hw2)
      show decodeTextAux tree (some (HNode.node fc lc rc))
        (b :: ((b2 :: v2) ++ rest)) = _
      rw [decodeTextAux, hchild2]
      exact ih (u ++ [b]) (HNode.node f2 l2 r2) (by simpa using huv)
        (by simp) hw2 ⟨f2, l2, r2, rfl⟩

theorem decode_text_flatten (root : HNode σ)
    (hint : ∃ f l r, root = HNode.node f l r) :
    ∀ L : List σ, (∀ s ∈ L, s ∈ (generate_codes root []).map Prod.fst) →
    decode_text
      ((L.map fun s =>
        (List.lookup s (generate_codes root [])).getD []).flatten) root
      = some L := by
  intro L
  induction L with
  | nil =>
    intro _
    simp only [List.map_nil, List.flatten_nil]
    exact decodeTextAux_nil root (some root)
  | cons s L' ihL =>
    intro hmem
    obtain ⟨w, hw⟩ := Option.isSome_iff_exists.mp
      (lookup_isSome_of_mem_keys (hmem s (List.mem_cons_self _ _)))
    have hms : (s, w) ∈ generate_codes root [] := lookup_mem hw
    rcases gen_code_walk root [] s w hms with ⟨f0, hleaf⟩ | ⟨w', hw', hpath⟩
    · obtain ⟨fi, li, ri, hr⟩ := hint
      rw [hr] at hleaf
      exact absurd hleaf (by simp)
    · rw [List.map_cons, List.flatten_cons, hw]
      have hww : (some w).getD [] = w' := by simpa using hw'
      rw [hww, decode_text, decodeTextAux_step root hpath]
      have hrec := ihL fun t ht => hmem t (List.mem_cons_of_mem _ ht)
      rw [decode_text] at hrec
      rw [hrec]
      rfl

/-- **C9.** For every Huffman tree and codeword table produced together by
`build_huffman_codes` from a FrequencyCount with at least 2 distinct
symbols, and every bitstring that is a concatenation of codewords from the
table, tree-walking decode (`Node.decode_text`, bit `'1'` to the left
child, `'0'` to the right) and inverse-table decode (Workbook2's `decode`)
return the same symbol sequence. -/
theorem huffman_tree_table_decode_agree (counter : List (σ × Nat))
    (chars L : List σ) (codes : List (σ × List Bool)) (enc : List Bool)
    (root : HNode σ) (hnd : (counter.map Prod.fst).Nodup)
    (h2 : 2 ≤ counter.length)
    (hb : build_huffman_codes chars counter = some (codes, enc, root))
    (hL : ∀ s ∈ L, s ∈ codes.map Prod.fst) :
    decode_text ((L.map fun s => (List.lookup s codes).getD []).flatten) root
      = some (decode
          ((L.map fun s => (List.lookup s codes).getD []).flatten) codes) := by
  obtain ⟨hroot, hcodes, -⟩ := build_huffman_codes_inv hb
  subst hcodes
  have hint : ∃ f a b, root = HNode.node f a b := by
    have hroot' : huffLoopF
        (counter.map fun p => HNode.leaf p.1 p.2).length
        (counter.map fun p => HNode.leaf p.1 p.2) = some root := hroot
    apply huffLoopF_internal _ _ root _ hroot'
    rw [List.length_map]
    exact h2
  rw [decode_text_flatten root hint L hL]
  have htab : decode
      ((L.map fun s =>
        (List.lookup s (generate_codes root [])).getD []).flatten)
      (generate_codes root []) = L := by
    rw [decode, ← List.append_nil
      ((L.map fun s =>
        (List.lookup s (generate_codes root [])).getD []).flatten)]
    rw [decodeAux_flatten_append _ (gen_pairwise root [])
      (fun e he => gen_codes_ne_nil root e he) L []
      (fun s hs => lookup_isSome_of_mem_keys (hL s hs))]
    simp [decodeAux]
  rw [htab]

/-- Witness for C9 on the counter `{a: 1, b: 1}` and the concatenation of
the codewords of `a` then `b`. -/
theorem huffman_tree_table_decode_agree_witness :
    ((([('a', 1), ('b', 1)] : List (Char × Nat)).map Prod.fst).Nodup) ∧
    (2 ≤ ([('a', 1), ('b', 1)] : List (Char × Nat)).length) ∧
    (build_huffman_codes ['a'] [('a', 1), ('b', 1)]
      = some ([('b', [false]), ('a', [true])], [true],
          HNode.node 2 (HNode.leaf 'a' 1) (HNode.leaf 'b' 1))) ∧
    (∀ s ∈ ['a', 'b'],
      s ∈ ([('b', [false]), ('a', [true])] : List (Char × List Bool)).map
        Prod.fst) ∧
    decode_text
        ((['a', 'b'].map fun s =>
          (List.lookup s
            ([('b', [false]), ('a', [true])] : List (Char × List Bool))).getD
            []).flatten)
        (HNode.node 2 (HNode.leaf 'a' 1) (HNode.leaf 'b' 1))
      = some (decode
          ((['a', 'b'].map fun s =>
            (List.lookup s
              ([('b', [false]), ('a', [true])] :
                List (Char × List Bool))).getD []).flatten)
          [('b', [false]), ('a', [true])]) :=
  ⟨by decide, by decide, by decide, by decide,
    huffman_tree_table_decode_agree [('a', 1), ('b', 1)] ['a'] ['a', 'b']
      [('b', [false]), ('a', [true])] [true]
      (HNode.node 2 (HNode.leaf 'a' 1) (HNode.leaf 'b' 1))
      (by decide) (by decide) (by decide) (by decide)⟩

theorem mem_keys_addCount {acc : List (σ × Nat)} {c k : σ} :
    k ∈ (addCount acc c).map Prod.fst ↔ k ∈ acc.map Prod.fst ∨ k = c := by
  induction acc with
  | nil => simp [addCount]
  | cons e rest ih =>
    obtain ⟨a, v⟩ := e
    by_cases hac : a = c
    · subst hac
      rw [addCount, if_pos rfl]
      simp
      tauto
    · rw [addCount, if_neg hac]
      simp only [List.map_cons, List.mem_cons] at *
      rw [ih]
      tauto

theorem nodup_keys_addCount {acc : List (σ × Nat)} (c : σ)
    (h : (acc.map Prod.fst).Nodup) : ((addCount acc c).map Prod.fst).Nodup := by
  induction acc with
  | nil => simp [addCount]
  | cons e rest ih =>
    obtain ⟨a, v⟩ := e
    rw [List.map_cons, List.nodup_cons] at h
    by_cases hac : a = c
    · subst hac
      rw [addCount, if_pos rfl]
      rw [List.map_cons, List.nodup_cons]
      exact ⟨h.1, h.2⟩
    · rw [addCount, if_neg hac]
      rw [List.map_cons, List.nodup_cons]
      constructor
      · rw [mem_keys_addCount]
        push_neg
        exact ⟨h.1, hac⟩
      · exact ih h.2

theorem countOf_addCount (acc : List (σ × Nat)) (c k : σ) :
    countOf (addCount acc c) k = countOf acc k + if k = c then 1 else 0 := by
  induction acc with
  | nil =>
    by_cases hk : k = c
    · subst hk
      simp [addCount, countOf, lookup_cons_self]
    · simp [addCount, countOf, lookup_cons_ne _ _ hk, hk]
  | cons e rest ih =>
    obtain ⟨a, v⟩ := e
    by_cases hac : a = c
    · subst hac
      rw [addCount, if_pos rfl]
      by_cases hk : k = a
      · subst hk
        simp [countOf, lookup_cons_self]
      · simp [countOf, lookup_cons_ne _ _ hk, hk]
    · rw [addCount, if_neg hac]
      by_cases hk : k = a
      · subst hk
        have hkc : ¬ (k = c) := fun h => hac h
        simp [countOf, lookup_cons_self, hkc]
      · simp only [countOf, lookup_cons_ne _ _ hk]
        exact ih

theorem countOf_toCounter (text : List σ) (k : σ) :
    countOf (toCounter text) k = text.count k := by
  suffices h : ∀ acc, countOf (text.foldl addCount acc) k
      = countOf acc k + text.count k by
    have h0 := h []
    rw [toCounter]
    rw [h0]
    simp [countOf]
  induction text with
  | nil =>
    intro acc
    simp
  | cons c rest ih =>
    intro acc
    rw [List.foldl_cons, ih (addCount acc c), countOf_addCount,
      List.count_cons]
    by_cases hkc : k = c
    · simp [hkc]
      omega
    · have hb : (k == c) = false := beq_false_of_ne hkc
      simp [hkc, hb]
      exact fun h => hkc h.symm

theorem mem_keys_toCounter (text : List σ) (k : σ) :
    k ∈ (toCounter text).map Prod.fst ↔ k ∈ text := by
  suffices h : ∀ acc, k ∈ (text.foldl addCount acc).map Prod.fst
      ↔ k ∈ acc.map Prod.fst ∨ k ∈ text by
    have h0 := h []
    rw [toCounter, h0]
    simp
  induction text with
  | nil =>
    intro acc
    simp
  | cons c rest ih =>
    intro acc
    rw [List.foldl_cons, ih (addCount acc c), mem_keys_addCount,
      List.mem_cons]
    tauto

theorem nodup_keys_toCounter (text : List σ) :
    ((toCounter text).map Prod.fst).Nodup := by
  suffices h : ∀ acc : List (σ × Nat), (acc.map Prod.fst).Nodup →
      ((text.foldl addCount acc).map Prod.fst).Nodup by
    exact h [] (by simp)
  induction text with
  | nil =>
    intro acc hacc
    exact hacc
  | cons c rest ih =>
    intro acc hacc
    rw [List.foldl_cons]
    exact ih (addCount acc c) (nodup_keys_addCount c hacc)

theorem mem_toCounter_count {text : List σ} {e : σ × Nat}
    (h : e ∈ toCounter text) : e.2 = text.count e.1 := by
  have he : (e.1, e.2) ∈ toCounter text := by
    obtain ⟨a, b⟩ := e
    exact h
  have hl := lookup_eq_some_of_nodup (nodup_keys_toCounter text) he
  have hc := countOf_toCounter text e.1
  rw [countOf, hl] at hc
  simpa using hc

theorem mostCommon_perm (counter : List (σ × Nat)) :
    (mostCommon counter).Perm counter :=
  List.perm_insertionSort descBySnd counter

theorem mostCommon_sorted (counter : List (σ × Nat)) :
    List.Pairwise descBySnd (mostCommon counter) :=
  List.sorted_insertionSort descBySnd counter

theorem removeSelection_sublist (text : List σ) (mode : Mode) (frac : ℚ) :
    (removeSelection text mode frac).Sublist (mostCommon (toCounter text)) := by
  rw [removeSelection]
  split
  · exact List.take_sublist _ _
  · exact List.drop_sublist _ _

theorem mostCommon_keys_nodup (text : List σ) :
    ((mostCommon (toCounter text)).map Prod.fst).Nodup := by
  rw [((mostCommon_perm (toCounter text)).map Prod.fst).nodup_iff]
  exact nodup_keys_toCounter text

theorem removeSelection_keys_nodup (text : List σ) (mode : Mode) (frac : ℚ) :
    ((removeSelection text mode frac).map Prod.fst).Nodup :=
  List.Nodup.sublist ((removeSelection_sublist text mode frac).map Prod.fst)
    (mostCommon_keys_nodup text)

theorem removeSelection_length (text : List σ) (mode : Mode) (frac : ℚ) :
    (removeSelection text mode frac).length
      = min ((max 1 (pythonRound
          (frac * ((toCounter text).length : ℚ)))).toNat)
        (toCounter text).length := by
  have hlen : (mostCommon (toCounter text)).length
      = (toCounter text).length := (mostCommon_perm (toCounter text)).length_eq
  rw [removeSelection]
  split
  · rw [List.length_take, hlen]
  · rw [List.length_drop, hlen]
    omega

theorem mem_mostCommon_count {text : List σ} {e : σ × Nat}
    (h : e ∈ mostCommon (toCounter text)) : e.2 = text.count e.1 :=
  mem_toCounter_count ((mostCommon_perm (toCounter text)).mem_iff.mp h)

/-- **C10.** On the empty sequence `remove_by_frequency` returns the
sequence unchanged together with an empty removed set, for every mode and
fraction — even though the `removeCount` formula
`max(1, round(frac·distinct))` is always at least 1. -/
theorem remove_by_frequency_empty (mode : Mode) (frac : ℚ) :
    remove_by_frequency ([] : List σ) mode frac = ([], ∅) ∧
    1 ≤ (max 1 (pythonRound
      (frac * ((toCounter ([] : List σ)).length : ℚ)))).toNat := by
  constructor
  · rfl
  · have h := le_max_left 1 (pythonRound
      (frac * ((toCounter ([] : List σ)).length : ℚ)))
    omega

/-- **C7** (counterexample to the claim as stated).  With text `"ab"`,
mode `top` and fraction 2, `removeCount = max(1, round(2·2)) = 4`, but
`remove_by_frequency` removes only 2 symbols (all that exist), not
exactly `removeCount`. -/
theorem remove_by_frequency_count_counterexample :
    (remove_by_frequency ['a', 'b'] Mode.top 2).2.card = 2 ∧
    (max 1 (pythonRound
      ((2 : ℚ) * ((toCounter ['a', 'b']).length : ℚ)))).toNat = 4 ∧
    (2 : ℕ) ≠ 4 := by
  with_unfolding_all decide

/-- **C7** (amended).  For every non-empty sequence, mode and fraction,
`remove_by_frequency` removes exactly
`min removeCount distinctSymbolCount` symbols (the claim's
`removeCount = max(1, round(frac·distinct))` caps at the alphabet size):
for `top` every removed symbol's count is ≥ every retained symbol's count,
for `bottom` ≤, boundary ties broken by the stable descending ranking used
for counting; the result drops exactly the occurrences of removed symbols,
preserving order and multiplicity of the rest.  The claim's example
`remove_by_frequency "aaabbbccd" top 0.34 = ("bbbccd", {a})` is checked in
the witness. -/
theorem remove_by_frequency_spec (text : List σ) (mode : Mode) (frac : ℚ)
    (hne : text ≠ []) :
    (remove_by_frequency text mode frac).2.card
      = min ((max 1 (pythonRound
          (frac * ((toCounter text).length : ℚ)))).toNat)
        (toCounter text).length ∧
    (remove_by_frequency text mode frac).1
      = text.filter (fun c => c ∉ (remove_by_frequency text mode frac).2) ∧
    (∀ s ∈ (remove_by_frequency text mode frac).2, s ∈ text) ∧
    (mode = Mode.top → ∀ s ∈ (remove_by_frequency text mode frac).2,
      ∀ t ∈ text, t ∉ (remove_by_frequency text mode frac).2 →
        text.count t ≤ text.count s) ∧
    (mode = Mode.bottom → ∀ s ∈ (remove_by_frequency text mode frac).2,
      ∀ t ∈ text, t ∉ (remove_by_frequency text mode frac).2 →
        text.count s ≤ text.count t) := by
  have hcne : ¬ ((toCounter text).isEmpty = true) := by
    intro h
    rw [List.isEmpty_iff] at h
    cases text with
    | nil => exact hne rfl
    | cons c rest =>
      have : c ∈ (toCounter (c :: rest)).map Prod.fst :=
        (mem_keys_toCounter _ c).mpr (List.mem_cons_self _ _)
      rw [h] at this
      simp at this
  have h2 : (remove_by_frequency text mode frac).2
      = ((removeSelection text mode frac).map Prod.fst).toFinset := by
    rw [remove_by_frequency, if_neg hcne]
  have h1 : (remove_by_frequency text mode frac).1
      = text.filter (fun c =>
          c ∉ ((removeSelection text mode frac).map Prod.fst).toFinset) := by
    rw [remove_by_frequency, if_neg hcne]
  have hmem2 : ∀ s, s ∈ (remove_by_frequency text mode frac).2 ↔
      s ∈ (removeSelection text mode frac).map Prod.fst := by
    intro s
    rw [h2, List.mem_toFinset]
  refine ⟨?_, ?_, ?_, ?_, ?_⟩
  · rw [h2, List.toFinset_card_of_nodup (removeSelection_keys_nodup text mode frac),
      List.length_map]
    exact removeSelection_length text mode frac
  · rw [h1, h2]
  · intro s hs
    rcases List.mem_map.mp ((hmem2 s).mp hs) with ⟨es, hes, hfst⟩
    have hmc : es ∈ mostCommon (toCounter text) :=
      (removeSelection_sublist text mode frac).mem hes
    have hks : es.1 ∈ (toCounter text).map Prod.fst :=
      List.mem_map.mpr ⟨es, (mostCommon_perm (toCounter text)).mem_iff.mp hmc,
        rfl⟩
    rw [hfst] at hks
    exact (mem_keys_toCounter text s).mp hks
  · intro hmode s hs t ht hnt
    rcases List.mem_map.mp ((hmem2 s).mp hs) with ⟨es, hes, hfst⟩
    have htk : t ∈ (mostCommon (toCounter text)).map Prod.fst := by
      rw [((mostCommon_perm (toCounter text)).map Prod.fst).mem_iff]
      exact (mem_keys_toCounter text t).mpr ht
    rcases List.mem_map.mp htk with ⟨et, het, hetfst⟩
    have hsel : removeSelection text mode frac
        = (mostCommon (toCounter text)).take
          ((max 1 (pythonRound
            (frac * ((toCounter text).length : ℚ)))).toNat) := by
      rw [removeSelection]
      simp [hmode]
    set k := (max 1 (pythonRound
      (frac * ((toCounter text).length : ℚ)))).toNat with hk
    have hsplit : (mostCommon (toCounter text)).take k
        ++ (mostCommon (toCounter text)).drop k
        = mostCommon (toCounter text) := List.take_append_drop _ _
    have hsorted : List.Pairwise descBySnd (mostCommon (toCounter text)) :=
      mostCommon_sorted (toCounter text)
    rw [← hsplit] at hsorted
    obtain ⟨-, -, hcross⟩ := List.pairwise_append.mp hsorted
    have het' : et ∈ (mostCommon (toCounter text)).take k
        ++ (mostCommon (toCounter text)).drop k := by
      rw [hsplit]
      exact het
    have hetd : et ∈ (mostCommon (toCounter text)).drop k := by
      rcases List.mem_append.mp het' with hh | hh
      · exfalso
        apply hnt
        rw [hmem2, hsel]
        exact List.mem_map.mpr ⟨et, hh, hetfst⟩
      · exact hh
    have hesd : es ∈ (mostCommon (toCounter text)).take k := by
      rw [← hsel]
      exact hes
    have hdesc := hcross es hesd et hetd
    have hce : es.2 = text.count s := by
      rw [← hfst]
      exact mem_mostCommon_count
        ((removeSelection_sublist text mode frac).mem hes)
    have hct : et.2 = text.count t := by
      rw [← hetfst]
      exact mem_mostCommon_count het
    rw [← hce, ← hct]
    exact hdesc
  · intro hmode s hs t ht hnt
    rcases List.mem_map.mp ((hmem2 s).mp hs) with ⟨es, hes, hfst⟩
    have htk : t ∈ (mostCommon (toCounter text)).map Prod.fst := by
      rw [((mostCommon_perm (toCounter text)).map Prod.fst).mem_iff]
      exact (mem_keys_toCounter text t).mpr ht
    rcases List.mem_map.mp htk with ⟨et, het, hetfst⟩
    have hsel : removeSelection text mode frac
        = (mostCommon (toCounter text)).drop
          ((mostCommon (toCounter text)).length
            - (max 1 (pythonRound
              (frac * ((toCounter text).length : ℚ)))).toNat) := by
      rw [removeSelection]
      simp [hmode]
    set k := (mostCommon (toCounter text)).length
      - (max 1 (pythonRound
        (frac * ((toCounter text).length : ℚ)))).toNat with hk
    have hsplit : (mostCommon (toCounter text)).take k
        ++ (mostCommon (toCounter text)).drop k
        = mostCommon (toCounter text) := List.take_append_drop _ _
    have hsorted : List.Pairwise descBySnd (mostCommon (toCounter text)) :=
      mostCommon_sorted (toCounter text)
    rw [← hsplit] at hsorted
    obtain ⟨-, -, hcross⟩ := List.pairwise_append.mp hsorted
    have het' : et ∈ (mostCommon (toCounter text)).take k
        ++ (mostCommon (toCounter text)).drop k := by
      rw [hsplit]
      exact het
    have hetd : et ∈ (mostCommon (toCounter text)).take k := by
      rcases List.mem_append.mp het' with hh | hh
      · exact hh
      · exfalso
        apply hnt
        rw [hmem2, hsel]
        exact List.mem_map.mpr ⟨et, hh, hetfst⟩
    have hesd : es ∈ (mostCommon (toCounter text)).drop k := by
      rw [hsel] at hes
      exact hes
    have hdesc := hcross et hetd es hesd
    have hce : es.2 = text.count s := by
      rw [← hfst]
      exact mem_mostCommon_count
        ((removeSelection_sublist text mode frac).mem hes)
    have hct : et.2 = text.count t := by
      rw [← hetfst]
      exact mem_mostCommon_count het
    rw [← hce, ← hct]
    exact hdesc

/-- Witness for the amended C7 on the claim's own example:
`remove_by_frequency "aaabbbccd" top 0.34` removes exactly `{a}` and
returns `"bbbccd"`. -/
theorem remove_by_frequency_spec_witness :
    (['a', 'a', 'a', 'b', 'b', 'b', 'c', 'c', 'd'] ≠ ([] : List Char)) ∧
    remove_by_frequency ['a', 'a', 'a', 'b', 'b', 'b', 'c', 'c', 'd']
        Mode.top (34 / 100)
      = (['b', 'b', 'b', 'c', 'c', 'd'], {'a'}) ∧
    (remove_by_frequency ['a', 'a', 'a', 'b', 'b', 'b', 'c', 'c', 'd']
        Mode.top (34 / 100)).2.card
      = min ((max 1 (pythonRound ((34 / 100 : ℚ)
          * ((toCounter ['a', 'a', 'a', 'b', 'b', 'b', 'c', 'c', 'd']).length
            : ℚ)))).toNat)
        (toCounter ['a', 'a', 'a', 'b', 'b', 'b', 'c', 'c', 'd']).length :=
  ⟨by decide, by with_unfolding_all decide,
    (remove_by_frequency_spec ['a', 'a', 'a', 'b', 'b', 'b', 'c', 'c', 'd']
      Mode.top (34 / 100) (by decide)).1⟩

end Theorems
